import Mathlib

/-!
# Verification of the en-croissant persistent game-tree engine

Shallow embedding of the tree model, mutation engine, move application and
PGN codec from `src/state/store/tree.ts`, `src/utils/treeReducer.ts` and
`src/utils/chess.ts`, together with proofs settling the frozen claims.

The chess rules engine (the `chessops` library) is external to the
repository; the spec scopes it out and specifies it only at its interface.
It is modelled here as an abstract `Engine` structure whose operations are
pure functions, instantiated with concrete finite tables for scenario
claims.  JavaScript reference identity is rendered as structural equality,
and in-place mutation of a node reached by a path is rendered as a
functional update at that path.
-/

/-- Side to move, as reported by the rules engine (`pos.turn`). -/
inductive Color where
  | white
  | black
deriving DecidableEq, Repr

/-- Engine score value: centipawns or mate distance (from `@/bindings`).
Centipawns are kept as rationals to model the JS number type exactly on
the arithmetic the code performs. -/
inductive ScoreValue where
  | cp (v : Rat)
  | mate (v : Int)
deriving DecidableEq, Repr

/-- Engine score with optional win/draw/loss statistics (from `@/bindings`). -/
structure Score where
  value : ScoreValue
  wdl : Option (Int × Int × Int)
deriving DecidableEq, Repr

/-- A chessground drawing annotation: a highlighted square (`dest = none`)
or an arrow (from `@lichess-org/chessground/draw`). -/
structure DrawShape where
  orig : String
  dest : Option String
  brush : Option String
deriving DecidableEq, Repr

/-- Game headers (`GameHeaders` in `src/utils/treeReducer.ts`), restricted
to the fields the verified operations read or write. -/
structure GameHeaders where
  id : Nat
  fen : String
  event : String
  site : String
  white : String
  black : String
  result : String
  date : Option String
  round : Option String
  start : Option (List Nat)
  orientation : Option String
deriving DecidableEq, Repr

/-- One node of the game tree (`TreeNode` in `src/utils/treeReducer.ts`).
Moves are opaque values handed to the rules engine; they are modelled as
strings.  `clock` is a rational to model JS number division exactly. -/
structure TreeNode where
  fen : String
  move : Option String
  san : Option String
  children : List TreeNode
  score : Option Score
  depth : Option Nat
  halfMoves : Nat
  shapes : List DrawShape
  annotations : List String
  comment : String
  clock : Option Rat
deriving Repr

/-- Whole tree state (`TreeState` in `src/utils/treeReducer.ts`); `report`
is the in-progress flag of the report sub-state. -/
structure TreeState where
  root : TreeNode
  headers : GameHeaders
  position : List Nat
  dirty : Bool
  report : Bool
deriving Repr


/-! ## Decidable equality for trees

JavaScript reference identity (`===`) is modelled as structural equality;
the executable comparison is a structurally recursive `beq`, proved to
coincide with `=`. -/

def TreeNode.beq : TreeNode → TreeNode → Bool
  | ⟨f1, m1, s1, c1, sc1, d1, h1, sh1, a1, co1, cl1⟩,
    ⟨f2, m2, s2, c2, sc2, d2, h2, sh2, a2, co2, cl2⟩ =>
    f1 == f2 && m1 == m2 && s1 == s2 && sc1 == sc2 && d1 == d2 && h1 == h2 &&
      sh1 == sh2 && a1 == a2 && co1 == co2 && cl1 == cl2 && go c1 c2
where
  go : List TreeNode → List TreeNode → Bool
    | [], [] => true
    | x :: xs, y :: ys => TreeNode.beq x y && go xs ys
    | _, _ => false

mutual

theorem TreeNode.beq_iff : ∀ a b : TreeNode, TreeNode.beq a b = true ↔ a = b
  | ⟨f1, m1, s1, c1, sc1, d1, h1, sh1, a1, co1, cl1⟩,
    ⟨f2, m2, s2, c2, sc2, d2, h2, sh2, a2, co2, cl2⟩ => by
    rw [TreeNode.beq]
    simp only [Bool.and_eq_true, beq_iff_eq, TreeNode.mk.injEq]
    rw [TreeNode.beq_go_iff c1 c2]
    tauto
termination_by a _ => sizeOf a

theorem TreeNode.beq_go_iff : ∀ xs ys : List TreeNode, TreeNode.beq.go xs ys = true ↔ xs = ys
  | [], [] => by simp [TreeNode.beq.go]
  | x :: xs, y :: ys => by
    rw [TreeNode.beq.go]
    simp only [Bool.and_eq_true, List.cons.injEq]
    rw [TreeNode.beq_iff x y, TreeNode.beq_go_iff xs ys]
  | [], _ :: _ => by simp [TreeNode.beq.go]
  | _ :: _, [] => by simp [TreeNode.beq.go]
termination_by xs _ => sizeOf xs

end

instance : DecidableEq TreeNode := fun a b => decidable_of_iff _ (TreeNode.beq_iff a b)

instance : DecidableEq TreeState :=
  fun ⟨r1, h1, p1, d1, rp1⟩ ⟨r2, h2, p2, d2, rp2⟩ =>
    decidable_of_iff (r1 = r2 ∧ h1 = h2 ∧ p1 = p2 ∧ d1 = d2 ∧ rp1 = rp2) (by
      simp only [TreeState.mk.injEq])

/-! ## Rules-engine interface

The spec (§1, §6) scopes chess legality out of the engine: "the engine does
not implement chess legality itself; it delegates to an external
rules-engine capability providing position state, move legality, notation
conversion, and end-of-game detection."  Modelled from the spec: the
`chessops` capability consumed by `src/utils/chessops.ts` (that wrapper
file is not included in the sources), as a structure of pure functions.
Moves are opaque (modelled as strings). -/
structure Engine (Pos : Type) where
  positionFromFen : String → Option Pos
  parseSan : Pos → String → Option String
  parseUci : String → Option String
  makeSan : Pos → String → String
  play : Pos → String → Pos
  makeFen : Pos → String
  turn : Pos → Color
  isEnd : Pos → Bool
  isCheckmate : Pos → Bool
  isStalemate : Pos → Bool
  isInsufficientMaterial : Pos → Bool

/-- The standard starting position (`INITIAL_FEN` from `chessops/fen`). -/
def INITIAL_FEN : String :=
  "rnbqkbnr/pppppppp/8/8/8/8/PPPPPPPP/RNBQKBNR w KQkq - 0 1"

/-! ## Path addressing (`src/utils/treeReducer.ts`) -/

/-- `getNodeAtPath` from `src/utils/treeReducer.ts`: resolution walks
children using successive indices; an out-of-range index yields the
deepest node reached so far rather than failing. -/
def getNodeAtPath : TreeNode → List Nat → TreeNode
  | node, [] => node
  | node, index :: rest =>
    if h : index < node.children.length then getNodeAtPath node.children[index] rest
    else node

/-- A path resolves exactly: every index is in range. -/
def validPath : TreeNode → List Nat → Bool
  | _, [] => true
  | node, index :: rest =>
    if h : index < node.children.length then validPath node.children[index] rest
    else false

/-- Functional rendering of an in-place mutation of the node reached by a
path (with `getNodeAtPath`'s degradation semantics): every node along the
path is rebuilt with one child replaced, and `f` is applied to the deepest
node reached. -/
def modifyAtPath (f : TreeNode → TreeNode) : TreeNode → List Nat → TreeNode
  | node, [] => f node
  | node, index :: rest =>
    if h : index < node.children.length then
      { node with children := node.children.set index (modifyAtPath f node.children[index] rest) }
    else f node

/-- `clonePath` from `src/state/store/tree.ts`: clone nodes along a path
for structural sharing; only nodes on the path are cloned, all others
share references.  (In the pure model a shallow clone is the node itself.) -/
def clonePath (root : TreeNode) (path : List Nat) : TreeNode :=
  match path with
  | [] => { root with children := root.children }
  | index :: rest =>
    if h : index < root.children.length then
      { root with children := root.children.set index (clonePath root.children[index] rest) }
    else { root with children := root.children }

/-- Modelled from the spec: `isPrefix` from `src/utils/misc.ts` (file not
included in the sources).  §4.2 uses it as "the cursor is at or below
`path`": it tests whether the first index list is a prefix of the second. -/
def prefixPath (a b : List Nat) : Bool := a.isPrefixOf b

/-- The nodes along the direct line from the root to the cursor, in order
(excluding the root itself).  The source walks `node.children[i]` blindly;
on an out-of-range index the model stops (the JS code would fault there,
and every verified property constrains the cursor to resolve). -/
def chainNodes : TreeNode → List Nat → List TreeNode
  | _, [] => []
  | node, index :: rest =>
    if h : index < node.children.length then
      node.children[index] :: chainNodes node.children[index] rest
    else []

/-- The characters of the separator string `" - "`. -/
def fenSepChars : List Char := [' ', '-', ' ']

/-- The prefix of a character list before the first occurrence of a
separator (the whole list when the separator never occurs). -/
def takeUntilSep (sep : List Char) : List Char → List Char
  | [] => []
  | c :: rest => if sep.isPrefixOf (c :: rest) then [] else c :: takeUntilSep sep rest

/-- `fen.split(" - ")[0]` as used by `isThreeFoldRepetition`.  (Core's
`String.splitOn` does not reduce in the kernel; this is the same first
piece computed over the character list.) -/
def stripFen (fen : String) : String := String.mk (takeUntilSep fenSepChars fen.data)

/-! ## Draw-rule detection (`src/state/store/tree.ts`) -/

/-- `isThreeFoldRepetition` from `src/state/store/tree.ts`: the list of
stripped positions is seeded with the stripped *default* starting position
(not the tree's own root position) and extended along the cursor line; the
new position counts as a repetition when it already occurs at least twice. -/
def isThreeFoldRepetition (state : TreeState) (fen : String) : Bool :=
  let fens := stripFen INITIAL_FEN :: (chainNodes state.root state.position).map (fun n => stripFen n.fen)
  decide (2 ≤ (fens.filter (fun f => f = stripFen fen)).length)

/-- The reset test of `is50MoveRule`: a notation string that starts with a
lowercase file letter (char codes 97–104), contains an `x` capture marker,
or contains an `=` promotion marker.  (`charCodeAt(0)` of an empty string
is `NaN`, which fails both comparisons.) -/
def sanResetsFifty (san : String) : Bool :=
  (match san.data with
   | [] => false
   | c :: _ => decide (97 ≤ c.toNat) && decide (c.toNat ≤ 104)) ||
    san.data.contains 'x' || san.data.contains '='

/-- The running counter of `is50MoveRule`: incremented per node along the
cursor line, reset to zero by a node whose (non-null, non-empty) notation
matches `sanResetsFifty`.  A falsy notation (null or empty) never resets. -/
def fiftyCounter (nodes : List TreeNode) : Nat :=
  nodes.foldl
    (fun count n =>
      match n.san with
      | none => count + 1
      | some s => if s ≠ "" && sanResetsFifty s then 0 else count + 1) 0

/-- `is50MoveRule` from `src/state/store/tree.ts`. -/
def is50MoveRule (state : TreeState) : Bool :=
  decide (100 ≤ fiftyCounter (chainNodes state.root state.position))

/-! ## Node construction (`src/utils/treeReducer.ts`) -/

/-- `createNode` from `src/utils/treeReducer.ts`.  A falsy clock (absent
or zero) is stored as absent; otherwise milliseconds become seconds. -/
def createNode (fen : String) (move : String) (san : String) (halfMoves : Nat)
    (clock : Option Rat) : TreeNode :=
  { fen := fen
    move := some move
    san := some san
    clock := clock.bind (fun c => if c = 0 then none else some (c / 1000))
    children := []
    score := none
    depth := none
    halfMoves := halfMoves
    shapes := []
    annotations := []
    comment := "" }

/-- `defaultTree` from `src/utils/treeReducer.ts`: a fresh single-root
state at the given (or default) starting position. -/
def defaultTree {Pos : Type} (E : Engine Pos) (fen : Option String) (turn : Option Color) :
    TreeState :=
  let resolvedTurn := turn.getD (((E.positionFromFen (fen.getD INITIAL_FEN)).map E.turn).getD Color.white)
  { dirty := false
    position := []
    root :=
      { fen := (fen.map String.trim).getD INITIAL_FEN
        move := none
        san := none
        children := []
        score := none
        depth := none
        halfMoves := if resolvedTurn = Color.black then 1 else 0
        shapes := []
        annotations := []
        comment := ""
        clock := none }
    headers :=
      { id := 0
        fen := fen.getD INITIAL_FEN
        black := ""
        white := ""
        result := "*"
        event := ""
        site := ""
        date := none
        round := none
        start := none
        orientation := none }
    report := false }

/-- A child is structurally smaller than its parent node. -/
theorem sizeOf_child_lt {c : TreeNode} : ∀ {n : TreeNode}, c ∈ n.children → sizeOf c < sizeOf n
  | ⟨f, m, s, cs, sc, d, h, sh, a, co, cl⟩, hm => by
    have h1 : sizeOf c < sizeOf cs := List.sizeOf_lt_of_mem hm
    simp only [TreeNode.mk.sizeOf_spec]
    omega

/-- The walk to the end of the mainline used by `makeMoveOnTree` when
`last = true` (the `while` loop pushing `0` while children exist). -/
def mainlinePath (n : TreeNode) : List Nat :=
  match h : n.children with
  | [] => []
  | c :: _ => 0 :: mainlinePath c
termination_by sizeOf n
decreasing_by
  exact sizeOf_child_lt (h ▸ List.mem_cons_self c _)

/-! ## Move application (`src/state/store/tree.ts`) -/

/-- `makeMoveOnTree` from `src/state/store/tree.ts`, as a pure state
transformer.  The in-place mutations of the (caller-cloned) tree are
rendered as functional updates at the target path; the shallow clone of an
already-existing child is the structural identity and disappears.  The
`sound` parameter only drives an audio side effect and is dropped. -/
def makeMoveOnTree {Pos : Type} (E : Engine Pos) (state : TreeState) (move : String)
    (last changePosition changeHeaders mainline : Bool) (clock : Option Rat) : TreeState :=
  let position := if last then mainlinePath state.root else state.position
  let moveNode := getNodeAtPath state.root position
  match E.positionFromFen moveNode.fen with
  | none => state
  | some pos =>
    let san := E.makeSan pos move
    if san = "--" then state
    else
      let pos2 := E.play pos move
      let headers1 :=
        if changeHeaders && E.isEnd pos2 then
          let hCheckmate :=
            if E.isCheckmate pos2 then
              { state.headers with result := if E.turn pos2 = Color.white then "0-1" else "1-0" }
            else state.headers
          if E.isStalemate pos2 || E.isInsufficientMaterial pos2 then
            { hCheckmate with result := "1/2-1/2" }
          else hCheckmate
        else state.headers
      let newFen := E.makeFen pos2
      let headers2 :=
        if (changeHeaders && isThreeFoldRepetition state newFen) || is50MoveRule state then
          { headers1 with result := "1/2-1/2" }
        else headers1
      match moveNode.children.findIdx? (fun n => n.san == some san) with
      | some i =>
        if changePosition then
          { state with headers := headers2, position := position ++ [i] }
        else { state with headers := headers2 }
      | none =>
        let newMoveNode := createNode newFen move san (moveNode.halfMoves + 1) clock
        let root' := modifyAtPath
          (fun n => { n with children := if mainline then newMoveNode :: n.children else n.children ++ [newMoveNode] })
          state.root position
        let position' :=
          if changePosition then
            if mainline && !last then position ++ [0]
            else position ++ [moveNode.children.length]
          else state.position
        { state with root := root', position := position', headers := headers2, dirty := true }

/-- The `payload` of the store's `makeMove` action: a notation string to
be parsed, or an already-typed move value. -/
inductive MovePayload where
  | san (s : String)
  | mv (m : String)

/-- The payload dispatch of `makeMove`: a string payload is parsed as
notation in the current position, a typed move is used as-is. -/
def payloadMove {Pos : Type} (E : Engine Pos) (pos : Pos) : MovePayload → Option String
  | MovePayload.san s => E.parseSan pos s
  | MovePayload.mv m => some m

/-- The `makeMove` store action from `src/state/store/tree.ts`: parse /
canonicalize the move at the cursor node, reject illegal or degenerate
moves with the state unchanged, follow an existing child without cloning
(fast path), or clone the cursor path and delegate to `makeMoveOnTree`
(slow path). -/
def makeMove {Pos : Type} (E : Engine Pos) (state : TreeState) (payload : MovePayload)
    (changePosition changeHeaders mainline : Bool) (clock : Option Rat) : TreeState :=
  let curNode := getNodeAtPath state.root state.position
  match E.positionFromFen curNode.fen with
  | none => state
  | some pos =>
    match payloadMove E pos payload with
    | none => state
    | some move =>
      let san := E.makeSan pos move
      if san = "--" then state
      else
        match curNode.children.findIdx? (fun n => n.san == some san) with
        | some existingIdx =>
          if changePosition = false then state
          else { state with position := state.position ++ [existingIdx] }
        | none =>
          let newRoot := clonePath state.root state.position
          let mutableState : TreeState :=
            { root := newRoot
              position := state.position
              headers := state.headers
              dirty := state.dirty
              report := state.report }
          let st' := makeMoveOnTree E mutableState move false changePosition changeHeaders mainline clock
          { state with
              root := st'.root
              position := st'.position
              headers := st'.headers
              dirty := st'.dirty }

/-! ## Structural edits (`src/state/store/tree.ts`) -/

/-- `deleteMove` (module-level helper) from `src/state/store/tree.ts`.
The parent of the target is looked up by dropping the last path index;
`findIndex` uses reference identity (structural equality in the model),
and JS `splice(index, 1)` with the failure value `-1` removes the *last*
element of the children array. -/
def deleteMoveT (state : TreeState) (path : List Nat) : TreeState :=
  let node := getNodeAtPath state.root path
  let parentPath := path.dropLast
  let root' := modifyAtPath
    (fun parent =>
      { parent with children :=
          match parent.children.findIdx? (fun n => n == node) with
          | some index => parent.children.eraseIdx index
          | none => parent.children.dropLast })
    state.root parentPath
  let position' :=
    if prefixPath path state.position then path.dropLast
    else if prefixPath parentPath state.position then
      if path.length ≤ state.position.length then state.position.set (path.length - 1) 0
      else state.position
    else state.position
  { state with root := root', position := position' }

/-- The `deleteMove` store action: defaults the path to the cursor and
marks the state dirty. -/
def deleteMoveAction (state : TreeState) (path : Option (List Nat)) : TreeState :=
  { deleteMoveT state (path.getD state.position) with dirty := true }

/-- The deepest index of a path that is non-zero
(`path.findLastIndex((v) => v !== 0)`, `none` encoding `-1`). -/
def lastNonzeroIdx : List Nat → Option Nat
  | [] => none
  | x :: xs =>
    match lastNonzeroIdx xs with
    | some j => some (j + 1)
    | none => if x ≠ 0 then some 0 else none

/-- `promoteVariation` (module-level helper) from
`src/state/store/tree.ts`: move the child at the deepest non-zero index
of `path` to the front of its parent's children, preserving the relative
order of the remaining siblings, and zero that index in the cursor.
(JS `splice`/`unshift` with an out-of-range index would insert an
`undefined` hole; the model leaves the children unchanged there — every
verified property resolves the path.) -/
def promoteVariationT (state : TreeState) (path : List Nat) : TreeState :=
  match lastNonzeroIdx path with
  | none => state
  | some i =>
    let v := path.getD i 0
    let promotablePath := path.take i
    let root' := modifyAtPath
      (fun node =>
        { node with children :=
            if v < node.children.length then
              node.children.getD v node :: node.children.eraseIdx v
            else node.children })
      state.root promotablePath
    { state with root := root', position := path.set i 0 }

/-- The number of non-zero entries of a path (termination measure of the
`promoteToMainline` loop). -/
def countNZ (p : List Nat) : Nat := (p.filter (fun v => v ≠ 0)).length

theorem lastNonzeroIdx_lt : ∀ {p : List Nat} {i : Nat}, lastNonzeroIdx p = some i → i < p.length
  | [], _, h => by simp [lastNonzeroIdx] at h
  | x :: xs, i, h => by
    rw [lastNonzeroIdx] at h
    cases hh : lastNonzeroIdx xs with
    | some j =>
      simp only [hh, Option.some.injEq] at h
      subst h
      have := lastNonzeroIdx_lt hh
      simp only [List.length_cons]
      omega
    | none =>
      simp only [hh] at h
      by_cases hx : x = 0
      · simp [hx] at h
      · simp only [ne_eq, hx, not_false_iff, if_true, Option.some.injEq] at h
        subst h
        simp

theorem lastNonzeroIdx_getD_ne : ∀ {p : List Nat} {i : Nat},
    lastNonzeroIdx p = some i → p.getD i 0 ≠ 0
  | [], _, h => by simp [lastNonzeroIdx] at h
  | x :: xs, i, h => by
    rw [lastNonzeroIdx] at h
    cases hh : lastNonzeroIdx xs with
    | some j =>
      simp only [hh, Option.some.injEq] at h
      subst h
      simpa using lastNonzeroIdx_getD_ne hh
    | none =>
      simp only [hh] at h
      by_cases hx : x = 0
      · simp [hx] at h
      · simp only [ne_eq, hx, not_false_iff, if_true, Option.some.injEq] at h
        subst h
        simpa using hx

theorem lastNonzeroIdx_isSome_of_any : ∀ {p : List Nat},
    p.any (fun v => v ≠ 0) = true → lastNonzeroIdx p ≠ none
  | [], h => by simp at h
  | x :: xs, h => by
    rw [lastNonzeroIdx]
    cases hh : lastNonzeroIdx xs with
    | some j => simp
    | none =>
      simp only [List.any_cons, Bool.or_eq_true, decide_eq_true_eq] at h
      rcases h with hx | hany
      · simp [hx]
      · exact absurd hh (lastNonzeroIdx_isSome_of_any hany)

theorem countNZ_cons (x : Nat) (xs : List Nat) :
    countNZ (x :: xs) = (if x = 0 then 0 else 1) + countNZ xs := by
  simp only [countNZ, List.filter_cons]
  by_cases hx : x = 0
  · simp [hx]
  · simp [hx]
    omega

theorem countNZ_set_zero_lt : ∀ {p : List Nat} {i : Nat},
    i < p.length → p.getD i 0 ≠ 0 → countNZ (p.set i 0) < countNZ p
  | [], _, h, _ => by simp at h
  | x :: xs, 0, _, hne => by
    simp only [List.getD_cons_zero] at hne
    rw [List.set_cons_zero, countNZ_cons, countNZ_cons]
    simp [hne]
  | x :: xs, i + 1, hlen, hne => by
    simp only [List.getD_cons_succ] at hne
    simp only [List.length_cons] at hlen
    have ih := countNZ_set_zero_lt (p := xs) (i := i) (by omega) hne
    rw [List.set_cons_succ, countNZ_cons, countNZ_cons]
    omega

/-- The `while` loop of the `promoteToMainline` store action: repeat
`promoteVariation`, re-reading the cursor after each step, until every
index along the (possibly shrunk) path is zero. -/
def promoteToMainlineGo (state : TreeState) (path : List Nat) : TreeState :=
  if hnz : path.any (fun v => v ≠ 0) = true then
    promoteToMainlineGo (promoteVariationT state path) (promoteVariationT state path).position
  else state
termination_by countNZ path
decreasing_by
  have hne := lastNonzeroIdx_isSome_of_any hnz
  rcases hlz : lastNonzeroIdx path with _ | i
  · exact absurd hlz hne
  · simp only [promoteVariationT, hlz]
    exact countNZ_set_zero_lt (lastNonzeroIdx_lt hlz) (lastNonzeroIdx_getD_ne hlz)

/-- The `promoteToMainline` store action from `src/state/store/tree.ts`. -/
def promoteToMainline (state : TreeState) (path : List Nat) : TreeState :=
  { promoteToMainlineGo state path with dirty := true }

/-- The `promoteVariation` store action from `src/state/store/tree.ts`. -/
def promoteVariationAction (state : TreeState) (path : List Nat) : TreeState :=
  { promoteVariationT state path with dirty := true }

/-! ## Field edits at the cursor (`src/state/store/tree.ts`) -/

/-- Modelled from the spec: the annotation vocabulary tables of
`src/utils/annotation.ts` (file not included in the sources).  §4.4:
numeric-annotation-glyph tokens "map to the symbolic annotation
vocabulary and are kept sorted by a canonical key"; each annotation has a
NAG number, an optional exclusivity group, and a basic/extended flavor. -/
structure AnnInfo where
  nag : String → Int
  group : String → Option String
  isBasic : String → Bool
  ofNag : Nat → Option String

/-- The `setComment` store action: clone the cursor path, overwrite the
cursor node's comment, mark dirty. -/
def setComment (state : TreeState) (payload : String) : TreeState :=
  let newRoot := clonePath state.root state.position
  { state with
      root := modifyAtPath (fun n => { n with comment := payload }) newRoot state.position
      dirty := true }

/-- The `setScore` store action: clone the cursor path, overwrite the
cursor node's score, mark dirty. -/
def setScore (state : TreeState) (score : Score) : TreeState :=
  let newRoot := clonePath state.root state.position
  { state with
      root := modifyAtPath (fun n => { n with score := some score }) newRoot state.position
      dirty := true }

/-- The `setAnnotation` store action (named `setAnnot` in the model):
toggle the glyph off if present, otherwise drop same-group glyphs, append
and re-sort by NAG (the JS comparator never returns 0; the stable sort is
modelled with `mergeSort`). -/
def setAnnot (A : AnnInfo) (state : TreeState) (payload : String) : TreeState :=
  let newRoot := clonePath state.root state.position
  let root' := modifyAtPath
    (fun node =>
      if node.annotations.contains payload then
        { node with annotations := node.annotations.filter (fun a => a ≠ payload) }
      else
        let newAnnotations := node.annotations.filter
          (fun a => (A.group a).isNone || A.group a ≠ A.group payload)
        { node with
            annotations := (newAnnotations ++ [payload]).mergeSort (fun a b => A.nag a ≤ A.nag b) })
    newRoot state.position
  { state with root := root', dirty := true }

/-- The module-level `setShapes` helper: toggle the first given shape on
the cursor node (matching by origin and destination), or clear all shapes
when given none. -/
def setShapesInner (shapes : List DrawShape) (node : TreeNode) : TreeNode :=
  match shapes with
  | shape :: _ =>
    match node.shapes.findIdx? (fun s => s.orig == shape.orig && s.dest == shape.dest) with
    | some index => { node with shapes := node.shapes.eraseIdx index }
    | none => { node with shapes := node.shapes ++ [shape] }
  | [] => { node with shapes := [] }

/-- The `setShapes` store action: clone the cursor path and toggle at the
cursor node. -/
def setShapes (state : TreeState) (shapes : List DrawShape) : TreeState :=
  let newRoot := clonePath state.root state.position
  { state with
      root := modifyAtPath (setShapesInner shapes) newRoot state.position
      dirty := true }

/-- The `clearShapes` store action: skip entirely when the cursor node
has no shapes, else clone the path and empty them. -/
def clearShapes (state : TreeState) : TreeState :=
  let node := getNodeAtPath state.root state.position
  if node.shapes.length = 0 then state
  else
    let newRoot := clonePath state.root state.position
    { state with
        root := modifyAtPath (fun n => { n with shapes := [] }) newRoot state.position
        dirty := true }

/-! ## PGN encoding (`src/utils/chess.ts`) -/

/-- Modelled from the spec: `formatScore` from `src/utils/score.ts` (file
not included in the sources), used only to print a centipawn evaluation
inside a `[%eval ...]` directive (§6). -/
def formatScoreCp (v : Rat) : String := toString v

/-- Left-pad a number to two digits. -/
def pad2 (n : Nat) : String := if n < 10 then "0" ++ toString n else toString n

/-- `makeClk` from `src/utils/chess.ts` (copied there from chessops).
Fractional-second formatting is approximated (the JS code uses locale
formatting); no verified property looks at clock texts. -/
def makeClk (seconds : Rat) : String :=
  let s := max 0 seconds
  let hours := (s / 3600).floor.toNat
  let rem := s - 3600 * (hours : Rat)
  let minutes := (rem / 60).floor.toNat
  let secs := rem - 60 * (minutes : Rat)
  toString hours ++ ":" ++ pad2 minutes ++ ":" ++
    (if secs < 10 then "0" else "") ++ toString secs

/-- The first character of the brush name, uppercased (`(brush ?? "G")[0]`). -/
def brushLetter (brush : Option String) : String :=
  match (brush.getD "G").data with
  | [] => ""
  | c :: _ => String.singleton c.toUpper

/-- `getMoveText` from `src/utils/chess.ts`: move number (for White, or
for Black only when first after a branch gap), notation, glyphs, then an
optional bundled comment block in the fixed order evaluation / clock /
drawing directives / free text. -/
def getMoveText (A : AnnInfo) (tree : TreeNode)
    (glyphs comments extraMarkups isFirst : Bool) : String :=
  let isBlack := tree.halfMoves % 2 = 0
  let moveNumber := (tree.halfMoves + 1) / 2
  let moveText :=
    match tree.san with
    | none => ""
    | some san =>
      let numberPart :=
        if isBlack then (if isFirst then toString moveNumber ++ "... " else "")
        else toString moveNumber ++ ". "
      let glyphPart :=
        if glyphs then
          tree.annotations.foldl
            (fun acc a =>
              if a = "" then acc
              else if A.isBasic a then acc ++ a
              else acc ++ " $" ++ toString (A.nag a))
            ""
        else ""
      numberPart ++ san ++ glyphPart ++ " "
  if comments || extraMarkups then
    let evalPart :=
      if extraMarkups then
        match tree.score with
        | none => ""
        | some sc =>
          match sc.value with
          | ScoreValue.cp v => "[%eval " ++ formatScoreCp v ++ "] "
          | ScoreValue.mate v => "[%eval #" ++ toString v ++ "] "
      else ""
    let clkPart :=
      if extraMarkups then
        match tree.clock with
        | none => ""
        | some c => "[%clk " ++ makeClk c ++ "] "
      else ""
    let shapesPart :=
      if extraMarkups && decide (0 < tree.shapes.length) then
        let squares := tree.shapes.filter (fun shape => shape.dest.isNone)
        let arrows := tree.shapes.filter (fun shape => shape.dest.isSome)
        (if decide (0 < squares.length) then
          "[%csl " ++
            String.intercalate ","
              (squares.map (fun shape => brushLetter shape.brush ++ shape.orig)) ++ "]"
         else "") ++
        (if decide (0 < arrows.length) then
          "[%cal " ++
            String.intercalate ","
              (arrows.map (fun shape =>
                brushLetter shape.brush ++ shape.orig ++ shape.dest.getD "")) ++ "]"
         else "")
      else ""
    let commentPart :=
      if comments && tree.comment ≠ "" then tree.comment else ""
    let content := "\x7b" ++ evalPart ++ clkPart ++ shapesPart ++ commentPart ++ "\x7d "
    if content ≠ "\x7b\x7d " then moveText ++ content else moveText
  else moveText

/-- `headersToPGN` from `src/utils/chess.ts`, over the modelled header
fields (falsy strings print as `?`). -/
def headersToPGN (game : GameHeaders) : String :=
  "[Event \"" ++ (if game.event = "" then "?" else game.event) ++ "\"]\n" ++
  "[Site \"" ++ (if game.site = "" then "?" else game.site) ++ "\"]\n" ++
  "[Date \"" ++ ((game.date.filter (fun d => d ≠ "")).getD "????.??.??") ++ "\"]\n" ++
  "[Round \"" ++ ((game.round.filter (fun r => r ≠ "")).getD "?") ++ "\"]\n" ++
  "[White \"" ++ (if game.white = "" then "?" else game.white) ++ "\"]\n" ++
  "[Black \"" ++ (if game.black = "" then "?" else game.black) ++ "\"]\n" ++
  "[Result \"" ++ game.result ++ "\"]\n" ++
  (match game.start with
   | some (s :: rest) =>
     "[Start \"[" ++ String.intercalate "," ((s :: rest).map toString) ++ "]\"]\n"
   | _ => "") ++
  (match game.orientation with
   | some o => "[Orientation \"" ++ o ++ "\"]\n"
   | none => "")

/-- JS `String.prototype.trim` over the characters the encoder emits
(core's `String.trim` does not reduce in the kernel). -/
def isWsChar (c : Char) : Bool := c = ' ' || c = '\n' || c = '\t' || c = '\r'

/-- Strip leading and trailing whitespace. -/
def trimChars (s : String) : String :=
  String.mk (((s.data.dropWhile isWsChar).reverse.dropWhile isWsChar).reverse)

/-- One frame of `getPGN`'s explicit emission stack. -/
structure PgnFrame where
  node : TreeNode
  isRoot : Bool
  path : Option (List Nat)

mutual

/-- The iterative emission loop of `getPGN` (explicit stack, linear-time
accumulation), fuelled for structural termination. -/
def getPGNLoop (A : AnnInfo) (glyphs comments variations extraMarkups : Bool) :
    Nat → List PgnFrame → List String → List String
  | 0, _, parts => parts
  | _ + 1, [], parts => parts
  | fuel + 1, frame :: rest, parts =>
    if frame.path = some ([] : List Nat) then
      getPGNLoop A glyphs comments variations extraMarkups fuel rest parts
    else
      -- `isRoot && current.comment !== null`: comments are strings, never null
      let parts1 :=
        if frame.isRoot then
          parts ++ [getMoveText A frame.node glyphs comments extraMarkups false]
        else parts
      match frame.node.children with
      | [] => getPGNLoop A glyphs comments variations extraMarkups fuel rest parts1
      | c0 :: _ =>
        let childIdx := match frame.path with | some p => p.headD 0 | none => 0
        -- an out-of-range child index faults in JS; the default is never
        -- reached on the resolving paths the properties use
        let child := frame.node.children.getD childIdx c0
        let parts2 :=
          parts1 ++ [getMoveText A child glyphs comments extraMarkups frame.isRoot]
        let parts3 :=
          if frame.path = none && variations then
            (frame.node.children.drop 1).foldl
              (fun acc variation =>
                acc ++ [" (", getMoveText A variation glyphs comments extraMarkups true, " ",
                  getPGNAux A fuel variation none glyphs comments variations extraMarkups false none,
                  ") "])
              parts2
          else parts2
        getPGNLoop A glyphs comments variations extraMarkups fuel
          ({ node := child, isRoot := false,
             path := frame.path.map (fun p => p.drop 1) } :: rest) parts3

/-- `getPGN` from `src/utils/chess.ts` (fuelled). -/
def getPGNAux (A : AnnInfo) : Nat → TreeNode → Option GameHeaders →
    Bool → Bool → Bool → Bool → Bool → Option (List Nat) → String
  | 0, _, _, _, _, _, _, _, _ => ""
  | fuel + 1, tree, headers, glyphs, comments, variations, extraMarkups, root, path =>
    if path = some ([] : List Nat) then ""
    else
      let parts0 :=
        (match headers with
         | some h => [headersToPGN h]
         | none => []) ++
        (if root && tree.fen ≠ INITIAL_FEN then
          ["[SetUp \"1\"]\n", "[FEN \"" ++ tree.fen ++ "\"]\n"]
         else []) ++ ["\n"]
      let parts := getPGNLoop A glyphs comments variations extraMarkups fuel
        [{ node := tree, isRoot := root, path := path }] parts0
      let parts2 :=
        match headers with
        | some h => if root then parts ++ [" " ++ h.result] else parts
        | none => parts
      trimChars (String.join parts2)

end

/-- Executable tree size (the auto-generated `sizeOf` of a nested
inductive carries no executable code). -/
def treeSize : TreeNode → Nat
  | ⟨_, _, _, c, _, _, _, _, _, _, _⟩ => 1 + go c
where
  go : List TreeNode → Nat
    | [] => 0
    | x :: xs => treeSize x + go xs + 1

/-- Fuel sufficient for any traversal of the given tree. -/
def pgnFuel (tree : TreeNode) : Nat := 4 * treeSize tree + 16

/-- `getPGN` at adequate fuel. -/
def getPGN (A : AnnInfo) (tree : TreeNode) (headers : Option GameHeaders)
    (glyphs comments variations extraMarkups root : Bool) (path : Option (List Nat)) : String :=
  getPGNAux A (pgnFuel tree) tree headers glyphs comments variations extraMarkups root path

/-- The `copyVariationPgn` store action (`src/state/store/tree.ts`)
computes the text written to the clipboard: no headers, no comments or
extra markups, glyphs on, variations off, along the given path. -/
def copyVariationPgnText (A : AnnInfo) (state : TreeState) (path : List Nat) : String :=
  getPGN A state.root none true false false false true (some path)

/-! ## PGN decoding (`src/utils/chess.ts`)

The decoder consumes a pre-tokenized stream (lexing is external, §4.4).
The source's flat loop threads a current node `root` and its parent
`prevNode` through mutation; the pure rendering parses each node's scope
recursively: decorations apply to the current node, a variation opened
while the current node is live attaches as a later child of its *parent*
(or, before the first move of a scope, of the scope root itself), and the
next move token starts the current node's child scope. -/

/-- One token of the external lexer's vocabulary. -/
inductive Token where
  | header (tag value : String)
  | san (v : String)
  | nag (v : Nat)
  | comment (v : String)
  | parenOpen
  | parenClose
  | outcome (v : String)
deriving DecidableEq, Repr

/-- The evaluation carried by a PGN comment (`chessops` `parseComment`):
pawn units or a mate distance. -/
inductive EvalInfo where
  | pawns (v : Rat)
  | mate (v : Int)
deriving DecidableEq, Repr

/-- Modelled from the spec: the result of the external `parseComment`
(`chessops/pgn`, §4.4) — an optional embedded evaluation, drawing
directives, an elapsed clock, and the remaining free text. -/
structure CommentInfo where
  evaluation : Option EvalInfo
  shapes : List DrawShape
  clock : Option Rat
  text : String

/-- Decorate the current node with a parsed comment, as the `Comment`
branch of `innerParsePGN` does: evaluation (pawns scaled to centipawns),
appended shapes, clock, and the free text. -/
def applyComment (pc : String → CommentInfo) (v : String) (cur : TreeNode) : TreeNode :=
  let info := pc v
  let cur1 :=
    match info.evaluation with
    | some (EvalInfo.pawns p) => { cur with score := some ⟨ScoreValue.cp (p * 100), none⟩ }
    | some (EvalInfo.mate m) => { cur with score := some ⟨ScoreValue.mate m, none⟩ }
    | none => cur
  let cur2 :=
    if decide (0 < info.shapes.length) then { cur1 with shapes := cur1.shapes ++ info.shapes }
    else cur1
  let cur3 :=
    match info.clock with
    | some c => { cur2 with clock := some c }
    | none => cur2
  { cur3 with comment := info.text }

/-- The `Nag` branch of `innerParsePGN`: map the glyph number through the
vocabulary (unknown numbers become the empty annotation) and keep the
node's annotations sorted by NAG. -/
def applyNag (A : AnnInfo) (n : Nat) (cur : TreeNode) : TreeNode :=
  { cur with
      annotations := (cur.annotations ++ [(A.ofNag n).getD ""]).mergeSort
        (fun a b => A.nag a ≤ A.nag b) }

/-- The forward scan for the matching variation close
(nested-open-count tracking), fuelled. -/
def scanClose (tokens : List Token) (endI : Nat) : Nat → Nat → Nat → Nat
  | 0, i, _ => i
  | fuel + 1, i, depth =>
    if i < endI then
      match tokens[i]? with
      | some Token.parenOpen => scanClose tokens endI fuel (i + 1) (depth + 1)
      | some Token.parenClose =>
        if depth = 0 then i else scanClose tokens endI fuel (i + 1) (depth - 1)
      | _ => scanClose tokens endI fuel (i + 1) depth
    else i

mutual

/-- Parse the decorations, sibling variations and child chain of a
non-root node `cur` (the source loop's state after `cur` was created):
returns the completed node, the variations to attach after it in its
parent's children, and the next token index. -/
def parseTail {Pos : Type} (E : Engine Pos) (A : AnnInfo) (pc : String → CommentInfo)
    (tokens : List Token) (endI : Nat) :
    Nat → Pos → Pos → String → TreeNode → List TreeNode → Nat → TreeNode × List TreeNode × Nat
  | 0, _, _, _, cur, vars, i => (cur, vars, i)
  | fuel + 1, pos, prevPos, parentFen, cur, vars, i =>
    if i < endI then
      match tokens[i]? with
      | none => (cur, vars, i)
      | some (Token.comment v) =>
        parseTail E A pc tokens endI fuel pos prevPos parentFen (applyComment pc v cur) vars (i + 1)
      | some Token.parenOpen =>
        let close := scanClose tokens endI (endI + 1) (i + 1) 0
        let sub := innerParsePGNAux E A pc fuel tokens parentFen (cur.halfMoves - 1) (i + 1)
          (some close) (some prevPos)
        let vars' :=
          match sub.1.root.children with
          | [] => vars
          | v :: _ => vars ++ [v]
        parseTail E A pc tokens endI fuel pos prevPos parentFen cur vars' (close + 1)
      | some Token.parenClose =>
        parseTail E A pc tokens endI fuel pos prevPos parentFen cur vars (i + 1)
      | some (Token.nag n) =>
        parseTail E A pc tokens endI fuel pos prevPos parentFen (applyNag A n cur) vars (i + 1)
      | some (Token.san v) =>
        match (match E.parseSan pos v with | some m => some m | none => E.parseUci v) with
        | none => parseTail E A pc tokens endI fuel pos prevPos parentFen cur vars (i + 1)
        | some move =>
          let san := E.makeSan pos move
          let newPos := E.play pos move
          let child0 := createNode (E.makeFen newPos) move san (cur.halfMoves + 1) none
          let res := parseTail E A pc tokens endI fuel newPos pos cur.fen child0 [] (i + 1)
          ({ cur with children := res.1 :: res.2.1 }, vars, res.2.2)
      | some (Token.outcome _) => (cur, vars, i)
      | some (Token.header _ _) =>
        parseTail E A pc tokens endI fuel pos prevPos parentFen cur vars (i + 1)
    else (cur, vars, i)
termination_by structural fuel _ _ _ _ _ _ => fuel

/-- Parse the scope of a sub-game root: decorations and leading
variations attach to the root itself; the first move token opens the
mainline child scope. -/
def parseTop {Pos : Type} (E : Engine Pos) (A : AnnInfo) (pc : String → CommentInfo)
    (tokens : List Token) (endI : Nat) :
    Nat → Pos → TreeNode → Nat → TreeNode × Nat
  | 0, _, cur, i => (cur, i)
  | fuel + 1, pos, cur, i =>
    if i < endI then
      match tokens[i]? with
      | none => (cur, i)
      | some (Token.comment v) => parseTop E A pc tokens endI fuel pos (applyComment pc v cur) (i + 1)
      | some Token.parenOpen =>
        let close := scanClose tokens endI (endI + 1) (i + 1) 0
        let sub := innerParsePGNAux E A pc fuel tokens cur.fen (cur.halfMoves - 1) (i + 1)
          (some close) (some pos)
        let cur' :=
          match sub.1.root.children with
          | [] => cur
          | v :: _ => { cur with children := cur.children ++ [v] }
        parseTop E A pc tokens endI fuel pos cur' (close + 1)
      | some Token.parenClose => parseTop E A pc tokens endI fuel pos cur (i + 1)
      | some (Token.nag n) => parseTop E A pc tokens endI fuel pos (applyNag A n cur) (i + 1)
      | some (Token.san v) =>
        match (match E.parseSan pos v with | some m => some m | none => E.parseUci v) with
        | none => parseTop E A pc tokens endI fuel pos cur (i + 1)
        | some move =>
          let san := E.makeSan pos move
          let newPos := E.play pos move
          let child0 := createNode (E.makeFen newPos) move san (cur.halfMoves + 1) none
          let res := parseTail E A pc tokens endI fuel newPos pos cur.fen child0 [] (i + 1)
          ({ cur with children := cur.children ++ res.1 :: res.2.1 }, res.2.2)
      | some (Token.outcome _) => (cur, i)
      | some (Token.header _ _) => parseTop E A pc tokens endI fuel pos cur (i + 1)
    else (cur, i)
termination_by structural fuel _ _ _ => fuel

/-- `innerParsePGN` from `src/utils/chess.ts` (fuelled): decode a token
range into a tree state, threading one live position through mainline
parsing and seeding variations from a snapshot of the position before
the branching move.  (The model folds FEN parsing and setup into
`positionFromFen`; `halfMoves - 1` is ℕ subtraction, which differs from
JS only in the untriggered variation-at-ply-zero corner.) -/
def innerParsePGNAux {Pos : Type} (E : Engine Pos) (A : AnnInfo) (pc : String → CommentInfo) :
    Nat → List Token → String → Nat → Nat → Option Nat → Option Pos → TreeState × Nat
  | 0, tokens, fen, _, _, endIndex, _ =>
    (defaultTree E (some fen) none, endIndex.getD tokens.length)
  | fuel + 1, tokens, fen, halfMoves, startIndex, endIndex, initialPos =>
    let endI := endIndex.getD tokens.length
    match (match initialPos with
           | some p => some p
           | none => E.positionFromFen fen) with
    | none => (defaultTree E (some fen) none, endI)
    | some pos =>
      let tree := defaultTree E (some fen) (some (E.turn pos))
      let rootHalf :=
        if halfMoves = 0 && E.turn pos = Color.black then halfMoves + 1 else halfMoves
      let root0 := { tree.root with halfMoves := rootHalf }
      let res := parseTop E A pc tokens endI fuel pos root0 startIndex
      ({ tree with root := res.1 }, res.2)
termination_by structural fuel _ _ _ _ _ _ => fuel

end

/-- `innerParsePGN` at adequate fuel, from the start of the token list. -/
def innerParsePGN {Pos : Type} (E : Engine Pos) (A : AnnInfo) (pc : String → CommentInfo)
    (tokens : List Token) (fen : String) (halfMoves : Nat) : TreeState × Nat :=
  innerParsePGNAux E A pc ((tokens.length + 2) * (tokens.length + 2)) tokens fen halfMoves 0
    none none

/-! ## Basic path lemmas -/

theorem list_set_self {α : Type} (l : List α) (i : Nat) (h : i < l.length) :
    l.set i l[i] = l := by
  apply List.ext_getElem
  · simp
  · intro n h1 h2
    rw [List.getElem_set]
    split
    · next heq => subst heq; rfl
    · rfl

theorem getNodeAtPath_cons_lt {R : TreeNode} {i : Nat} {rest : List Nat}
    (h : i < R.children.length) :
    getNodeAtPath R (i :: rest) = getNodeAtPath R.children[i] rest := by
  rw [getNodeAtPath]
  simp [h]

theorem getNodeAtPath_cons_ge {R : TreeNode} {i : Nat} {rest : List Nat}
    (h : ¬ i < R.children.length) :
    getNodeAtPath R (i :: rest) = R := by
  rw [getNodeAtPath]
  simp [h]

theorem validPath_cons_lt {R : TreeNode} {i : Nat} {rest : List Nat}
    (h : i < R.children.length) :
    validPath R (i :: rest) = validPath R.children[i] rest := by
  rw [validPath]
  simp [h]

theorem validPath_cons_ge {R : TreeNode} {i : Nat} {rest : List Nat}
    (h : ¬ i < R.children.length) :
    validPath R (i :: rest) = false := by
  rw [validPath]
  simp [h]

theorem modifyAtPath_cons_lt (f : TreeNode → TreeNode) {R : TreeNode} {i : Nat} {rest : List Nat}
    (h : i < R.children.length) :
    modifyAtPath f R (i :: rest) =
      { R with children := R.children.set i (modifyAtPath f R.children[i] rest) } := by
  rw [modifyAtPath]
  simp [h]

theorem modifyAtPath_cons_ge (f : TreeNode → TreeNode) {R : TreeNode} {i : Nat} {rest : List Nat}
    (h : ¬ i < R.children.length) :
    modifyAtPath f R (i :: rest) = f R := by
  rw [modifyAtPath]
  simp [h]

theorem children_mk_with (R : TreeNode) (l : List TreeNode) :
    (TreeNode.mk R.fen R.move R.san l R.score R.depth R.halfMoves R.shapes R.annotations
      R.comment R.clock).children = l := rfl

/-- Cloning a path is the structural identity: `clonePath` rebuilds the
nodes along the path with the same contents. -/
theorem clonePath_eq (root : TreeNode) (path : List Nat) : clonePath root path = root := by
  induction path generalizing root with
  | nil => cases root; rfl
  | cons i rest ih =>
    cases root with
    | mk f m s c sc d hm sh a co cl =>
      rw [clonePath]
      split
      · next h =>
        rw [ih]
        simp only at h
        congr 1
        exact list_set_self c i h
      · rfl

theorem getNodeAtPath_append (R : TreeNode) (a b : List Nat) (hva : validPath R a = true) :
    getNodeAtPath R (a ++ b) = getNodeAtPath (getNodeAtPath R a) b := by
  induction a generalizing R with
  | nil => simp [getNodeAtPath]
  | cons i rest ih =>
    by_cases h : i < R.children.length
    · rw [validPath_cons_lt h] at hva
      rw [List.cons_append, getNodeAtPath_cons_lt h, getNodeAtPath_cons_lt h]
      exact ih _ hva
    · rw [validPath_cons_ge h] at hva
      exact absurd hva (by simp)

theorem validPath_append (R : TreeNode) (a b : List Nat) (hva : validPath R a = true) :
    validPath R (a ++ b) = validPath (getNodeAtPath R a) b := by
  induction a generalizing R with
  | nil => simp [getNodeAtPath]
  | cons i rest ih =>
    by_cases h : i < R.children.length
    · rw [validPath_cons_lt h] at hva
      rw [List.cons_append, validPath_cons_lt h, getNodeAtPath_cons_lt h]
      exact ih _ hva
    · rw [validPath_cons_ge h] at hva
      exact absurd hva (by simp)

/-- Resolving through a modification at a valid path `p` continues inside
the modified node. -/
theorem modify_resolve (f : TreeNode → TreeNode) (R : TreeNode) (p q : List Nat)
    (hva : validPath R p = true) :
    getNodeAtPath (modifyAtPath f R p) (p ++ q) = getNodeAtPath (f (getNodeAtPath R p)) q := by
  induction p generalizing R with
  | nil => simp [modifyAtPath, getNodeAtPath]
  | cons i rest ih =>
    by_cases h : i < R.children.length
    · rw [validPath_cons_lt h] at hva
      rw [List.cons_append, modifyAtPath_cons_lt f h, getNodeAtPath_cons_lt h]
      have hlen : i < ({ R with children := R.children.set i (modifyAtPath f R.children[i] rest) } : TreeNode).children.length := by
        simpa using h
      rw [getNodeAtPath_cons_lt hlen]
      have : ({ R with children := R.children.set i (modifyAtPath f R.children[i] rest) } : TreeNode).children[i] = modifyAtPath f R.children[i] rest := by
        simp
      rw [this]
      exact ih _ hva
    · rw [validPath_cons_ge h] at hva
      exact absurd hva (by simp)

/-- Validity through a modification at a valid path `p`. -/
theorem modify_valid (f : TreeNode → TreeNode) (R : TreeNode) (p q : List Nat)
    (hva : validPath R p = true) :
    validPath (modifyAtPath f R p) (p ++ q) = validPath (f (getNodeAtPath R p)) q := by
  induction p generalizing R with
  | nil => simp [modifyAtPath, getNodeAtPath]
  | cons i rest ih =>
    by_cases h : i < R.children.length
    · rw [validPath_cons_lt h] at hva
      rw [List.cons_append, modifyAtPath_cons_lt f h, getNodeAtPath_cons_lt h]
      have hlen : i < ({ R with children := R.children.set i (modifyAtPath f R.children[i] rest) } : TreeNode).children.length := by
        simpa using h
      rw [validPath_cons_lt hlen]
      have : ({ R with children := R.children.set i (modifyAtPath f R.children[i] rest) } : TreeNode).children[i] = modifyAtPath f R.children[i] rest := by
        simp
      rw [this]
      exact ih _ hva
    · rw [validPath_cons_ge h] at hva
      exact absurd hva (by simp)

/-- Frame property of `modifyAtPath` for an edit that does not touch the
children container: resolution at any exactly-resolving path `Q` that is
not an ancestor (prefix) of the edited path `P` is unchanged. -/
theorem modify_off (f : TreeNode → TreeNode) (hf : ∀ n, (f n).children = n.children)
    (R : TreeNode) (P Q : List Nat) (hQ : validPath R Q = true)
    (hnp : ¬ Q <+: P) :
    getNodeAtPath (modifyAtPath f R P) Q = getNodeAtPath R Q := by
  induction Q generalizing R P with
  | nil => exact absurd List.nil_prefix hnp
  | cons q Qrest ih =>
    by_cases hq : q < R.children.length
    · rw [validPath_cons_lt hq] at hQ
      match P with
      | [] =>
        have hq' : q < (f R).children.length := by rw [hf]; exact hq
        rw [modifyAtPath, getNodeAtPath_cons_lt hq', getNodeAtPath_cons_lt hq]
        have hel : (f R).children[q] = R.children[q] := by simp only [hf R]
        rw [hel]
      | p :: Prest =>
        by_cases hp : p < R.children.length
        · rw [modifyAtPath_cons_lt f hp]
          have hql : q < ({ R with children := R.children.set p (modifyAtPath f R.children[p] Prest) } : TreeNode).children.length := by
            simpa using hq
          rw [getNodeAtPath_cons_lt hql, getNodeAtPath_cons_lt hq]
          by_cases hqp : q = p
          · subst hqp
            have hel : ({ R with children := R.children.set q (modifyAtPath f R.children[q] Prest) } : TreeNode).children[q] = modifyAtPath f R.children[q] Prest := by
              simp
            rw [hel]
            have hnp' : ¬ Qrest <+: Prest := by
              intro hcon
              exact hnp (by simpa using hcon)
            exact ih _ _ hQ hnp'
          · have hel : ({ R with children := R.children.set p (modifyAtPath f R.children[p] Prest) } : TreeNode).children[q] = R.children[q] := by
              simp only
              rw [List.getElem_set_ne (by omega)]
            rw [hel]
        · have hq' : q < (f R).children.length := by rw [hf]; exact hq
          rw [modifyAtPath_cons_ge f hp, getNodeAtPath_cons_lt hq', getNodeAtPath_cons_lt hq]
          have hel : (f R).children[q] = R.children[q] := by simp only [hf R]
          rw [hel]
    · rw [validPath_cons_ge hq] at hQ
      exact absurd hQ (by simp)

theorem validPath_append_left {R : TreeNode} {a b : List Nat}
    (h : validPath R (a ++ b) = true) : validPath R a = true := by
  induction a generalizing R with
  | nil => rfl
  | cons i rest ih =>
    by_cases hi : i < R.children.length
    · rw [List.cons_append, validPath_cons_lt hi] at h
      rw [validPath_cons_lt hi]
      exact ih h
    · rw [List.cons_append, validPath_cons_ge hi] at h
      exact absurd h (by simp)

/-- No node equals one of its own children (structural acyclicity). -/
theorem child_ne_parent {c n : TreeNode} (h : c ∈ n.children) : c ≠ n := by
  intro heq
  have hlt := sizeOf_child_lt h
  subst heq
  omega

/-- The reference-identity search of `deleteMove` for the root among the
root's own children always fails. -/
theorem findIdx_self_none (n : TreeNode) :
    n.children.findIdx? (fun c => c == n) = none := by
  rw [List.findIdx?_eq_none_iff]
  intro c hc
  simp only [beq_eq_false_iff_ne, ne_eq]
  exact child_ne_parent hc

/-! ## Witness scaffolding -/

/-- A plain node for concrete test trees. -/
def mkNode (f : String) (sanOpt : Option String) (hm : Nat) (cs : List TreeNode) : TreeNode :=
  { fen := f
    move := sanOpt
    san := sanOpt
    children := cs
    score := none
    depth := none
    halfMoves := hm
    shapes := []
    annotations := []
    comment := ""
    clock := none }

/-- Headers of a fresh default game. -/
def testHeaders : GameHeaders :=
  { id := 0
    fen := INITIAL_FEN
    event := ""
    site := ""
    white := ""
    black := ""
    result := "*"
    date := none
    round := none
    start := none
    orientation := none }

/-- A state over a given root and cursor. -/
def mkState (r : TreeNode) (pos : List Nat) : TreeState :=
  { root := r, headers := testHeaders, position := pos, dirty := false, report := false }

/-! ## C10 — deleteMove with the empty path -/

/-- **C10.** Calling `deleteMove` with the empty path (which addresses the
root) on a tree whose root has at least one child is not a no-op: the root
is looked up as its own parent, the identity search for it among the
root's children fails, so JS `splice(-1, 1)` removes the root's *last*
child (not the mainline child, not the whole tree), and the cursor becomes
the empty path. -/
theorem claim_C10_deleteMove_empty_path (st : TreeState) (hne : st.root.children ≠ []) :
    (deleteMoveAction st (some [])).root =
      { st.root with children := st.root.children.dropLast } ∧
    (deleteMoveAction st (some [])).position = [] ∧
    (deleteMoveAction st (some [])).root.children ≠ st.root.children := by
  have hroot : (deleteMoveAction st (some [])).root =
      { st.root with children := st.root.children.dropLast } := by
    simp only [deleteMoveAction, Option.getD_some, deleteMoveT, getNodeAtPath,
      List.dropLast_nil, modifyAtPath, findIdx_self_none]
  refine ⟨hroot, ?_, ?_⟩
  · simp only [deleteMoveAction, Option.getD_some, deleteMoveT, prefixPath, List.isPrefixOf,
      List.dropLast_nil]
    simp
  · rw [hroot]
    intro heq
    have hlen := congrArg List.length heq
    simp only [List.length_dropLast] at hlen
    have : 0 < st.root.children.length := List.length_pos.mpr hne
    omega

def c10a : TreeNode := mkNode (String.mk [Char.ofNat 97]) none 1 []

def c10b : TreeNode := mkNode (String.mk [Char.ofNat 98]) none 1 []

def c10state : TreeState := mkState (mkNode INITIAL_FEN none 0 [c10a, c10b]) []

theorem claim_C10_witness :
    c10state.root.children ≠ [] ∧
    (deleteMoveAction c10state (some [])).root =
      { c10state.root with children := c10state.root.children.dropLast } ∧
    (deleteMoveAction c10state (some [])).position = [] ∧
    (deleteMoveAction c10state (some [])).root.children ≠ c10state.root.children := by
  have h := claim_C10_deleteMove_empty_path c10state (by decide)
  exact ⟨by decide, h.1, h.2.1, h.2.2⟩

/-! ## C8 — rejection of illegal or degenerate moves -/

/-- **C8.** If the payload notation does not parse to a legal move in the
current node's position, or the move's canonical notation degenerates to
the non-move `"--"`, `makeMove` returns the entire tree state (root,
cursor, headers, dirty flag) unchanged; being a total function of the
state, no exception crosses the boundary. -/
theorem claim_C8_illegal_or_degenerate_rejected {Pos : Type} (E : Engine Pos) (st : TreeState)
    (payload : MovePayload) (changePosition changeHeaders mainline : Bool) (clock : Option Rat)
    (pos : Pos)
    (hpos : E.positionFromFen (getNodeAtPath st.root st.position).fen = some pos)
    (hbad : payloadMove E pos payload = none ∨
            (∃ move, payloadMove E pos payload = some move ∧ E.makeSan pos move = "--")) :
    makeMove E st payload changePosition changeHeaders mainline clock = st := by
  rcases hbad with hparse | ⟨move, hmove, hsan⟩
  · simp only [makeMove, hpos, hparse]
  · simp only [makeMove, hpos]
    rw [hmove]
    simp [hsan]

/-- An engine whose notation parser rejects everything. -/
def rejectEngine : Engine String :=
  { positionFromFen := fun f => some f
    parseSan := fun _ _ => none
    parseUci := fun _ => none
    makeSan := fun _ m => m
    play := fun p _ => p
    makeFen := id
    turn := fun _ => Color.white
    isEnd := fun _ => false
    isCheckmate := fun _ => false
    isStalemate := fun _ => false
    isInsufficientMaterial := fun _ => false }

def sanKg9 : String := "Kg9"

def c8state : TreeState := mkState (mkNode INITIAL_FEN none 0 []) []

theorem claim_C8_witness :
    rejectEngine.positionFromFen (getNodeAtPath c8state.root c8state.position).fen =
      some INITIAL_FEN ∧
    payloadMove rejectEngine INITIAL_FEN (MovePayload.san sanKg9) = none ∧
    makeMove rejectEngine c8state (MovePayload.san sanKg9) true true false none = c8state :=
  ⟨rfl, rfl,
    claim_C8_illegal_or_degenerate_rejected rejectEngine c8state (MovePayload.san sanKg9)
      true true false none INITIAL_FEN rfl (Or.inl rfl)⟩

/-! ## C3 — structural sharing of field edits -/

theorem setComment_eq (st : TreeState) (c : String) :
    setComment st c =
      { st with
          root := modifyAtPath (fun n => { n with comment := c }) st.root st.position
          dirty := true } := by
  simp [setComment, clonePath_eq]

theorem setScore_eq (st : TreeState) (sc : Score) :
    setScore st sc =
      { st with
          root := modifyAtPath (fun n => { n with score := some sc }) st.root st.position
          dirty := true } := by
  simp [setScore, clonePath_eq]

theorem setAnnot_eq (A : AnnInfo) (st : TreeState) (a : String) :
    setAnnot A st a =
      { st with
          root := modifyAtPath
            (fun node =>
              if node.annotations.contains a then
                { node with annotations := node.annotations.filter (fun x => x ≠ a) }
              else
                let newAnnotations := node.annotations.filter
                  (fun x => (A.group x).isNone || A.group x ≠ A.group a)
                { node with
                    annotations := (newAnnotations ++ [a]).mergeSort
                      (fun x y => A.nag x ≤ A.nag y) })
            st.root st.position
          dirty := true } := by
  simp [setAnnot, clonePath_eq]

theorem setShapes_eq (st : TreeState) (shs : List DrawShape) :
    setShapes st shs =
      { st with
          root := modifyAtPath (setShapesInner shs) st.root st.position
          dirty := true } := by
  simp [setShapes, clonePath_eq]

/-- **C3 (amended).** A field edit at the cursor (comment, score,
annotation glyph, or drawing shapes) leaves the subtree resolved at every
*exactly-resolving* path `Q` outside the edited path's ancestor chain
unchanged — JS object identity of untouched nodes is rendered as
structural equality of the resolved subtrees. -/
theorem claim_C3_field_edit_frame (st : TreeState) (Q : List Nat)
    (hQ : validPath st.root Q = true) (hout : ¬ Q <+: st.position)
    (c : String) (sc : Score) (A : AnnInfo) (a : String) (shs : List DrawShape) :
    getNodeAtPath (setComment st c).root Q = getNodeAtPath st.root Q ∧
    getNodeAtPath (setScore st sc).root Q = getNodeAtPath st.root Q ∧
    getNodeAtPath (setAnnot A st a).root Q = getNodeAtPath st.root Q ∧
    getNodeAtPath (setShapes st shs).root Q = getNodeAtPath st.root Q := by
  refine ⟨?_, ?_, ?_, ?_⟩
  · rw [setComment_eq]
    exact modify_off (fun n => { n with comment := c }) (fun n => rfl)
      st.root st.position Q hQ hout
  · rw [setScore_eq]
    exact modify_off (fun n => { n with score := some sc }) (fun n => rfl)
      st.root st.position Q hQ hout
  · rw [setAnnot_eq]
    refine modify_off _ ?_ st.root st.position Q hQ hout
    intro n
    dsimp only
    split
    · rfl
    · rfl
  · rw [setShapes_eq]
    refine modify_off _ ?_ st.root st.position Q hQ hout
    intro n
    rcases shs with _ | ⟨shape, rest⟩
    · rfl
    · unfold setShapesInner
      dsimp only
      split
      · rfl
      · rfl

def c3state : TreeState := mkState (mkNode INITIAL_FEN none 0 []) []

def commentHi : String := "hi"

/-- **C3 counterexample.** As stated the claim fails: with the cursor at
the childless root, the path `[0]` lies outside the edited path's
ancestor chain, yet resolution degrades `[0]` to the root itself, so the
content "resolved at" `[0]` changes when the root's comment is edited. -/
theorem claim_C3_counterexample :
    ¬ ([0] <+: c3state.position) ∧
    getNodeAtPath (setComment c3state commentHi).root [0] ≠ getNodeAtPath c3state.root [0] := by
  constructor
  · decide
  · decide

def trivialAnnInfo : AnnInfo :=
  { nag := fun _ => 0
    group := fun _ => none
    isBasic := fun _ => true
    ofNag := fun _ => none }

def score0 : Score := { value := ScoreValue.cp 1, wdl := none }

def shapeA : DrawShape := { orig := commentHi, dest := none, brush := none }

def annBang : String := "!"

def c3wstate : TreeState := mkState (mkNode INITIAL_FEN none 0 [c10a, c10b]) [0]

theorem claim_C3_witness :
    validPath c3wstate.root [1] = true ∧
    ¬ ([1] <+: c3wstate.position) ∧
    getNodeAtPath (setComment c3wstate commentHi).root [1] = getNodeAtPath c3wstate.root [1] ∧
    getNodeAtPath (setScore c3wstate score0).root [1] = getNodeAtPath c3wstate.root [1] ∧
    getNodeAtPath (setAnnot trivialAnnInfo c3wstate annBang).root [1] =
      getNodeAtPath c3wstate.root [1] ∧
    getNodeAtPath (setShapes c3wstate [shapeA]).root [1] = getNodeAtPath c3wstate.root [1] := by
  have h := claim_C3_field_edit_frame c3wstate [1] (by decide) (by decide) commentHi score0
    trivialAnnInfo annBang [shapeA]
  exact ⟨by decide, by decide, h.1, h.2.1, h.2.2.1, h.2.2.2⟩

/-! ## C6 — deleteMove -/

theorem prefixPath_iff (a b : List Nat) : prefixPath a b = true ↔ a <+: b := by
  rw [prefixPath, List.isPrefixOf_iff_prefix]

/-- Resolving a modification at its own (valid) path yields the modified
node. -/
theorem modify_resolve_self (f : TreeNode → TreeNode) (R : TreeNode) (p : List Nat)
    (hva : validPath R p = true) :
    getNodeAtPath (modifyAtPath f R p) p = f (getNodeAtPath R p) := by
  have h := modify_resolve f R p [] hva
  rw [List.append_nil] at h
  simpa using h

/-- When the parent's children carry pairwise-distinct notations, the
structural search for the child at index `k` finds exactly `k` (as the
reference-identity search of the JS code does). -/
theorem findIdx_node_of_nodup_san {l : List TreeNode} {k : Nat}
    (hnd : (l.map (fun n => n.san)).Nodup) (hk : k < l.length) :
    l.findIdx? (fun n => n == l[k]) = some k := by
  rw [List.findIdx?_eq_some_iff_getElem]
  refine ⟨hk, by simp, ?_⟩
  intro j hjk
  have hj : j < l.length := Nat.lt_trans hjk hk
  simp only [beq_iff_eq]
  intro heq
  have hjm : j < (l.map (fun n => n.san)).length := by simpa using hj
  have hkm : k < (l.map (fun n => n.san)).length := by simpa using hk
  have hsan : (l.map (fun n => n.san))[j] = (l.map (fun n => n.san))[k] := by
    simp only [List.getElem_map]
    rw [heq]
  have := (List.Nodup.getElem_inj_iff hnd).mp hsan
  omega

/-- **C6.** For a non-empty path `p ++ [k]` addressing an existing node
(whose siblings carry pairwise-distinct notations, the structural stand-in
for reference identity), `deleteMove` removes the subtree at index `k`
from its parent's children; the cursor becomes the parent if the deleted
path is a prefix of the cursor, else its index at the deleted depth is
zeroed when the parent path is a cursor prefix and the cursor is at least
that deep, else it is unchanged. -/
theorem claim_C6_deleteMove_spec (st : TreeState) (p : List Nat) (k : Nat)
    (hv : validPath st.root (p ++ [k]) = true)
    (hnd : ((getNodeAtPath st.root p).children.map (fun n => n.san)).Nodup) :
    (getNodeAtPath (deleteMoveAction st (some (p ++ [k]))).root p).children =
      (getNodeAtPath st.root p).children.eraseIdx k ∧
    (deleteMoveAction st (some (p ++ [k]))).position =
      (if (p ++ [k]) <+: st.position then p
       else if p <+: st.position ∧ p.length + 1 ≤ st.position.length then
         st.position.set p.length 0
       else st.position) := by
  have hvp : validPath st.root p = true := validPath_append_left hv
  have hparent := getNodeAtPath_append st.root p [k] hvp
  have hvk : validPath (getNodeAtPath st.root p) [k] = true := by
    rw [← validPath_append st.root p [k] hvp]
    exact hv
  have hk : k < (getNodeAtPath st.root p).children.length := by
    by_cases h : k < (getNodeAtPath st.root p).children.length
    · exact h
    · rw [validPath_cons_ge h] at hvk
      exact absurd hvk (by simp)
  have hnode : getNodeAtPath st.root (p ++ [k]) = (getNodeAtPath st.root p).children[k] := by
    rw [hparent, getNodeAtPath_cons_lt hk]
    rfl
  constructor
  · simp only [deleteMoveAction, Option.getD_some, deleteMoveT, List.dropLast_concat]
    rw [modify_resolve_self _ st.root p hvp]
    dsimp only
    rw [hnode, findIdx_node_of_nodup_san hnd hk]
  · simp only [deleteMoveAction, Option.getD_some, deleteMoveT, List.dropLast_concat,
      List.length_append, List.length_cons, List.length_nil]
    simp only [prefixPath_iff]
    split_ifs with h1 h2 h3 h4 <;> try rfl
    · exact absurd ⟨h2, by omega⟩ h4
    · exact absurd (‹p <+: st.position ∧ p.length + 1 ≤ st.position.length›.2) (by omega)
    · exact absurd (‹p <+: st.position ∧ p.length + 1 ≤ st.position.length›.1) h2

def c6a : TreeNode := mkNode (String.mk [Char.ofNat 97]) (some (String.mk [Char.ofNat 97])) 1 []

def c6b : TreeNode := mkNode (String.mk [Char.ofNat 98]) (some (String.mk [Char.ofNat 98])) 1 []

def c6state : TreeState := mkState (mkNode INITIAL_FEN none 0 [c6a, c6b]) [1]

theorem claim_C6_witness :
    validPath c6state.root ([] ++ [1]) = true ∧
    ((getNodeAtPath c6state.root []).children.map (fun n => n.san)).Nodup ∧
    (getNodeAtPath (deleteMoveAction c6state (some ([] ++ [1]))).root []).children =
      (getNodeAtPath c6state.root []).children.eraseIdx 1 ∧
    (deleteMoveAction c6state (some ([] ++ [1]))).position =
      (if ([] ++ [1] : List Nat) <+: c6state.position then ([] : List Nat)
       else if ([] : List Nat) <+: c6state.position ∧
           ([] : List Nat).length + 1 ≤ c6state.position.length then
         c6state.position.set ([] : List Nat).length 0
       else c6state.position) := by
  have h := claim_C6_deleteMove_spec c6state [] 1 (by decide) (by decide)
  exact ⟨by decide, by decide, h.1, h.2⟩

/-! ## C5 — promoteToMainline -/

/-- One `promoteVariation` step at a resolving path with a deepest
non-zero index `i`: the cursor becomes the path with `i` zeroed, the
subtree previously addressed by the path is addressed by the new cursor,
and the new cursor resolves exactly. -/
theorem promoteVariationT_step (st : TreeState) (path : List Nat) (i : Nat)
    (hi : lastNonzeroIdx path = some i) (hv : validPath st.root path = true) :
    validPath (promoteVariationT st path).root (path.set i 0) = true ∧
    getNodeAtPath (promoteVariationT st path).root (path.set i 0) =
      getNodeAtPath st.root path ∧
    (promoteVariationT st path).position = path.set i 0 := by
  have hilen : i < path.length := lastNonzeroIdx_lt hi
  have hdecomp : path = path.take i ++ path[i] :: path.drop (i + 1) := by
    conv_lhs => rw [← List.take_append_drop i path]
    rw [List.drop_eq_getElem_cons hilen]
  have hset : path.set i 0 = path.take i ++ 0 :: path.drop (i + 1) :=
    List.set_eq_take_cons_drop 0 hilen
  have hvp : validPath st.root (path.take i) = true := by
    apply validPath_append_left (b := path[i] :: path.drop (i + 1))
    rw [← hdecomp]
    exact hv
  have hvtail : validPath (getNodeAtPath st.root (path.take i)) (path[i] :: path.drop (i + 1)) = true := by
    rw [← validPath_append st.root _ _ hvp, ← hdecomp]
    exact hv
  have hvlt : path[i] < (getNodeAtPath st.root (path.take i)).children.length := by
    by_cases h : path[i] < (getNodeAtPath st.root (path.take i)).children.length
    · exact h
    · rw [validPath_cons_ge h] at hvtail
      exact absurd hvtail (by simp)
  have hvchild : validPath (getNodeAtPath st.root (path.take i)).children[path[i]]
      (path.drop (i + 1)) = true := by
    rw [validPath_cons_lt hvlt] at hvtail
    exact hvtail
  have hgetd : path.getD i 0 = path[i] := List.getD_eq_getElem path 0 hilen
  have hroot : (promoteVariationT st path).root =
      modifyAtPath
        (fun node =>
          { node with children :=
              if path[i] < node.children.length then
                node.children.getD path[i] node :: node.children.eraseIdx path[i]
              else node.children })
        st.root (path.take i) := by
    rw [promoteVariationT, hi]
    simp only [hgetd]
  have hpos : (promoteVariationT st path).position = path.set i 0 := by
    rw [promoteVariationT, hi]
  set N := getNodeAtPath st.root (path.take i) with hN
  have hchild : ({ N with children :=
        (if path[i] < N.children.length then
          N.children.getD path[i] N :: N.children.eraseIdx path[i]
        else N.children) } : TreeNode) =
      { N with children := N.children[path[i]] :: N.children.eraseIdx path[i] } := by
    simp only [if_pos hvlt]
    rw [List.getD_eq_getElem N.children N hvlt]
  refine ⟨?_, ?_, hpos⟩
  · rw [hroot, hset, modify_valid _ st.root _ _ hvp]
    rw [hchild]
    have h0 : (0 : Nat) < ({ N with children := N.children[path[i]] :: N.children.eraseIdx path[i] } : TreeNode).children.length := by
      simp
    rw [validPath_cons_lt h0]
    exact hvchild
  · rw [hroot, hset, modify_resolve _ st.root _ _ hvp]
    rw [hchild]
    have h0 : (0 : Nat) < ({ N with children := N.children[path[i]] :: N.children.eraseIdx path[i] } : TreeNode).children.length := by
      simp
    rw [getNodeAtPath_cons_lt h0]
    conv_rhs => rw [hdecomp, getNodeAtPath_append st.root _ _ hvp, getNodeAtPath_cons_lt hvlt]
    rfl

/-- The `promoteToMainline` loop on a resolving path with at least one
non-zero index terminates with an all-zero cursor that addresses the
subtree originally addressed by the path. -/
theorem promoteToMainlineGo_spec (st : TreeState) (path : List Nat)
    (hv : validPath st.root path = true) (hnz : path.any (fun v => v ≠ 0) = true) :
    (promoteToMainlineGo st path).position.all (fun v => v = 0) = true ∧
    getNodeAtPath (promoteToMainlineGo st path).root (promoteToMainlineGo st path).position =
      getNodeAtPath st.root path := by
  obtain ⟨i, hi⟩ : ∃ i, lastNonzeroIdx path = some i := by
    rcases hh : lastNonzeroIdx path with _ | i
    · exact absurd hh (lastNonzeroIdx_isSome_of_any hnz)
    · exact ⟨i, rfl⟩
  obtain ⟨hval, hcontent, hpos⟩ := promoteVariationT_step st path i hi hv
  rw [promoteToMainlineGo, dif_pos hnz]
  by_cases hnz' : (promoteVariationT st path).position.any (fun v => v ≠ 0) = true
  · have hval' : validPath (promoteVariationT st path).root
        (promoteVariationT st path).position = true := by
      rw [hpos]
      exact hval
    have ih := promoteToMainlineGo_spec (promoteVariationT st path)
      (promoteVariationT st path).position hval' hnz'
    refine ⟨ih.1, ih.2.trans ?_⟩
    rw [hpos]
    exact hcontent
  · rw [promoteToMainlineGo, dif_neg hnz']
    refine ⟨?_, ?_⟩
    · rw [hpos]
      rw [hpos] at hnz'
      simp only [List.any_eq_true, not_exists, not_and] at hnz'
      rw [List.all_eq_true]
      intro x hx
      have := hnz' x hx
      simpa using this
    · rw [hpos]
      exact hcontent
termination_by countNZ path
decreasing_by
  rw [hpos]
  exact countNZ_set_zero_lt (lastNonzeroIdx_lt hi) (lastNonzeroIdx_getD_ne hi)

/-- **C5 (amended).** For every resolving path `P` containing at least
one non-zero index, `promoteToMainline(P)` terminates (it is a total
function) and leaves the cursor at an all-zero path whose resolved
subtree equals the subtree resolved at `P` before the promotion.  (When
`P` is already all-zero the loop body never runs and the cursor is left
untouched.) -/
theorem claim_C5_promoteToMainline_spec (st : TreeState) (P : List Nat)
    (hv : validPath st.root P = true) (hnz : P.any (fun v => v ≠ 0) = true) :
    (promoteToMainline st P).position.all (fun v => v = 0) = true ∧
    getNodeAtPath (promoteToMainline st P).root (promoteToMainline st P).position =
      getNodeAtPath st.root P := by
  have h := promoteToMainlineGo_spec st P hv hnz
  simpa [promoteToMainline] using h

def c5state : TreeState := mkState (mkNode INITIAL_FEN none 0 [c6a, c6b]) [1]

/-- **C5 counterexample.** As stated the claim fails for an all-zero
path: with the cursor at `[1]`, `promoteToMainline([0])` runs zero loop
iterations and leaves the cursor `[1]`, which does not consist of zero
indices. -/
theorem claim_C5_counterexample :
    validPath c5state.root [0] = true ∧
    (promoteToMainline c5state [0]).position = [1] ∧
    ¬ (promoteToMainline c5state [0]).position.all (fun v => v = 0) = true := by
  have hgo : promoteToMainlineGo c5state [0] = c5state := by
    rw [promoteToMainlineGo]
    simp
  refine ⟨by decide, ?_, ?_⟩
  · simp only [promoteToMainline, hgo]
    rfl
  · simp only [promoteToMainline, hgo]
    decide

def c5wstate : TreeState := mkState (mkNode INITIAL_FEN none 0 [c6a, c6b]) []

theorem claim_C5_witness :
    validPath c5wstate.root [1] = true ∧
    ([1] : List Nat).any (fun v => v ≠ 0) = true ∧
    (promoteToMainline c5wstate [1]).position.all (fun v => v = 0) = true ∧
    getNodeAtPath (promoteToMainline c5wstate [1]).root (promoteToMainline c5wstate [1]).position =
      getNodeAtPath c5wstate.root [1] := by
  have h := claim_C5_promoteToMainline_spec c5wstate [1] (by decide) (by decide)
  exact ⟨by decide, by decide, h.1, h.2⟩

/-! ## C1 / C2 — draw-rule headers on move application -/

/-- Claim-side definition (from the spec's words): the stripped board
positions along the direct ancestor chain of the active cursor — the
tree's own root position followed by each node on the cursor line. -/
def ancestorStrips (st : TreeState) : List String :=
  stripFen st.root.fen :: (chainNodes st.root st.position).map (fun n => stripFen n.fen)

/-- `makeMoveOnTree` (non-append mode) writes the draw result whenever
the repetition-or-fifty-move disjunction of the source holds, whatever
branch the insertion then takes. -/
theorem makeMoveOnTree_result {Pos : Type} (E : Engine Pos) (st : TreeState) (move : String)
    (changePosition changeHeaders mainline : Bool) (clock : Option Rat) (pos : Pos)
    (hpos : E.positionFromFen (getNodeAtPath st.root st.position).fen = some pos)
    (hsan : ¬ E.makeSan pos move = "--")
    (hdraw : ((changeHeaders && isThreeFoldRepetition st (E.makeFen (E.play pos move))) ||
      is50MoveRule st) = true) :
    (makeMoveOnTree E st move false changePosition changeHeaders mainline clock).headers.result =
      "1/2-1/2" := by
  simp only [makeMoveOnTree, Bool.false_eq_true, if_false, hpos, if_neg hsan, hdraw, if_true]
  rcases hidx : (getNodeAtPath st.root st.position).children.findIdx?
      (fun n => n.san == some (E.makeSan pos move)) with _ | i
  · simp only [hidx]
  · simp only [hidx]
    by_cases hcp : changePosition = true
    · simp only [hcp, if_true]
    · simp only [Bool.not_eq_true] at hcp
      simp only [hcp, Bool.false_eq_true, if_false]

/-- **C1 (amended).** If a move applied through `makeMove` with header
updates enabled takes the slow path (its canonical notation is not
already a child of the cursor node) on a tree rooted at the default
initial position, and the resulting board position — stripped as the
code strips (`split(" - ")[0]`) — already occurs at least twice along
the direct ancestor chain of the active cursor (so that, with the new
node, it occurs three times on one line), then the game-result header is
set to `"1/2-1/2"`. -/
theorem claim_C1_threefold_draw {Pos : Type} (E : Engine Pos) (st : TreeState)
    (payload : MovePayload) (changePosition mainline : Bool) (clock : Option Rat)
    (pos : Pos) (move : String)
    (hroot : st.root.fen = INITIAL_FEN)
    (hvc : validPath st.root st.position = true)
    (hpos : E.positionFromFen (getNodeAtPath st.root st.position).fen = some pos)
    (hmv : payloadMove E pos payload = some move)
    (hsan : ¬ E.makeSan pos move = "--")
    (hslow : (getNodeAtPath st.root st.position).children.findIdx?
      (fun n => n.san == some (E.makeSan pos move)) = none)
    (hrep : 2 ≤ ((ancestorStrips st).filter
      (fun f => f = stripFen (E.makeFen (E.play pos move)))).length) :
    (makeMove E st payload changePosition true mainline clock).headers.result = "1/2-1/2" := by
  have hthree : isThreeFoldRepetition st (E.makeFen (E.play pos move)) = true := by
    simp only [isThreeFoldRepetition, decide_eq_true_eq]
    simp only [ancestorStrips, hroot] at hrep
    exact hrep
  simp only [makeMove, hpos]
  rw [hmv]
  dsimp only
  rw [if_neg hsan]
  simp only [hslow]
  exact makeMoveOnTree_result E _ move changePosition true mainline clock pos
    (by rw [clonePath_eq]; exact hpos)
    hsan
    (by
      have hmk : isThreeFoldRepetition
          { root := clonePath st.root st.position
            headers := st.headers
            position := st.position
            dirty := st.dirty
            report := st.report } (E.makeFen (E.play pos move)) =
          isThreeFoldRepetition st (E.makeFen (E.play pos move)) := by
        simp only [isThreeFoldRepetition, clonePath_eq]
      rw [hmk, hthree]
      simp)

/-- **C2 (amended).** If a move applied through `makeMove` takes the slow
path (its canonical notation is not already a child of the cursor node)
while one hundred halfmove-equivalents with no pawn move, capture or
promotion — detected by scanning each node's notation for a leading
lowercase file letter, an `x`, or a `=`, any match resetting the counter
— have elapsed along the active line, then the game-result header is set
to `"1/2-1/2"` (with or without header updates enabled: the fifty-move
test is not guarded by the flag). -/
theorem claim_C2_fifty_move_draw {Pos : Type} (E : Engine Pos) (st : TreeState)
    (payload : MovePayload) (changePosition changeHeaders mainline : Bool) (clock : Option Rat)
    (pos : Pos) (move : String)
    (hvc : validPath st.root st.position = true)
    (hpos : E.positionFromFen (getNodeAtPath st.root st.position).fen = some pos)
    (hmv : payloadMove E pos payload = some move)
    (hsan : ¬ E.makeSan pos move = "--")
    (hslow : (getNodeAtPath st.root st.position).children.findIdx?
      (fun n => n.san == some (E.makeSan pos move)) = none)
    (hfifty : 100 ≤ fiftyCounter (chainNodes st.root st.position)) :
    (makeMove E st payload changePosition changeHeaders mainline clock).headers.result =
      "1/2-1/2" := by
  have h50 : is50MoveRule st = true := by
    simp only [is50MoveRule, decide_eq_true_eq]
    exact hfifty
  simp only [makeMove, hpos]
  rw [hmv]
  dsimp only
  rw [if_neg hsan]
  simp only [hslow]
  exact makeMoveOnTree_result E _ move changePosition changeHeaders mainline clock pos
    (by rw [clonePath_eq]; exact hpos)
    hsan
    (by
      have hmk : is50MoveRule
          { root := clonePath st.root st.position
            headers := st.headers
            position := st.position
            dirty := st.dirty
            report := st.report } =
          is50MoveRule st := by
        simp only [is50MoveRule, clonePath_eq]
      rw [hmk, h50]
      simp)

set_option maxRecDepth 40000

/-- An engine accepting every notation verbatim on a static board. -/
def simpleEngine : Engine String :=
  { positionFromFen := fun f => some f
    parseSan := fun _ s => some s
    parseUci := fun _ => none
    makeSan := fun _ m => m
    play := fun p _ => p
    makeFen := id
    turn := fun _ => Color.white
    isEnd := fun _ => false
    isCheckmate := fun _ => false
    isStalemate := fun _ => false
    isInsufficientMaterial := fun _ => false }

def sanKb1 : String := "Kb1"

def sanKc1 : String := "Kc1"

def fenQ : String := "8/8/8/8/8/8/8/K7 w - - 0 1"

/-- A quiet king-move chain of `n + 1` plies whose deepest node already
has the next quiet move as a child (the fast-path target). -/
def c2deep : Nat → TreeNode
  | 0 => mkNode fenQ (some sanKb1) 1 [mkNode fenQ (some sanKc1) 1 []]
  | n + 1 => mkNode fenQ (some sanKb1) 1 [c2deep n]

def c2state : TreeState := mkState (mkNode INITIAL_FEN none 0 [c2deep 99]) (List.replicate 100 0)

/-- **C2 counterexample.** One hundred quiet plies have elapsed along the
active line, yet applying the next move through `makeMove` leaves the
result header untouched, because the move already exists as a child and
the fast path returns before any draw detection runs. -/
theorem claim_C2_counterexample :
    100 ≤ fiftyCounter (chainNodes c2state.root c2state.position) ∧
    (makeMove simpleEngine c2state (MovePayload.san sanKc1) true true false
      none).headers.result ≠ "1/2-1/2" := by
  constructor
  · decide
  · decide

/-- A quiet king-move chain of `n + 1` plies with a childless deepest
node (the slow-path scenario). -/
def c2wdeep : Nat → TreeNode
  | 0 => mkNode fenQ (some sanKb1) 1 []
  | n + 1 => mkNode fenQ (some sanKb1) 1 [c2wdeep n]

def c2wstate : TreeState :=
  mkState (mkNode INITIAL_FEN none 0 [c2wdeep 99]) (List.replicate 100 0)

theorem claim_C2_witness :
    validPath c2wstate.root c2wstate.position = true ∧
    100 ≤ fiftyCounter (chainNodes c2wstate.root c2wstate.position) ∧
    (makeMove simpleEngine c2wstate (MovePayload.san sanKc1) true true false
      none).headers.result = "1/2-1/2" := by
  refine ⟨by decide, by decide, ?_⟩
  exact claim_C2_fifty_move_draw simpleEngine c2wstate (MovePayload.san sanKc1)
    true true false none (getNodeAtPath c2wstate.root c2wstate.position).fen sanKc1
    (by decide) rfl rfl (by decide) (by decide) (by decide)

def sanNf3 : String := "Nf3"

def sanNf6 : String := "Nf6"

def sanNg1 : String := "Ng1"

def sanNg8 : String := "Ng8"

def f1fen : String := "rnbqkbnr/pppppppp/8/8/8/5N2/PPPPPPPP/RNBQKB1R b KQkq - 1 1"

def f2fen : String := "rnbqkb1r/pppppppp/5n2/8/8/5N2/PPPPPPPP/RNBQKB1R w KQkq - 2 2"

def f3fen : String := "rnbqkb1r/pppppppp/5n2/8/8/8/PPPPPPPP/RNBQKBNR b KQkq - 3 2"

def f4fen : String := "rnbqkbnr/pppppppp/8/8/8/8/PPPPPPPP/RNBQKBNR w KQkq - 4 3"

def f5fen : String := "rnbqkbnr/pppppppp/8/8/8/5N2/PPPPPPPP/RNBQKB1R b KQkq - 5 3"

def f6fen : String := "rnbqkb1r/pppppppp/5n2/8/8/5N2/PPPPPPPP/RNBQKB1R w KQkq - 6 4"

def f7fen : String := "rnbqkb1r/pppppppp/5n2/8/8/8/PPPPPPPP/RNBQKBNR b KQkq - 7 4"

def f8fen : String := "rnbqkbnr/pppppppp/8/8/8/8/PPPPPPPP/RNBQKBNR w KQkq - 8 5"

/-- An engine covering the knight-dance repetition line from the default
initial position. -/
def repEngine : Engine String :=
  { positionFromFen := fun f => some f
    parseSan := fun _ s => some s
    parseUci := fun _ => none
    makeSan := fun _ m => m
    play := fun p m => if p = f7fen && m = sanNg8 then f8fen else p
    makeFen := id
    turn := fun _ => Color.white
    isEnd := fun _ => false
    isCheckmate := fun _ => false
    isStalemate := fun _ => false
    isInsufficientMaterial := fun _ => false }

def c1w7 : TreeNode := mkNode f7fen (some sanNg1) 7 []

def c1w6 : TreeNode := mkNode f6fen (some sanNf6) 6 [c1w7]

def c1w5 : TreeNode := mkNode f5fen (some sanNf3) 5 [c1w6]

def c1w4 : TreeNode := mkNode f4fen (some sanNg8) 4 [c1w5]

def c1w3 : TreeNode := mkNode f3fen (some sanNg1) 3 [c1w4]

def c1w2 : TreeNode := mkNode f2fen (some sanNf6) 2 [c1w3]

def c1w1 : TreeNode := mkNode f1fen (some sanNf3) 1 [c1w2]

def c1wstate : TreeState :=
  mkState (mkNode INITIAL_FEN none 0 [c1w1]) [0, 0, 0, 0, 0, 0, 0]

theorem claim_C1_witness :
    c1wstate.root.fen = INITIAL_FEN ∧
    validPath c1wstate.root c1wstate.position = true ∧
    2 ≤ ((ancestorStrips c1wstate).filter
      (fun f => f = stripFen (repEngine.makeFen (repEngine.play f7fen sanNg8)))).length ∧
    (makeMove repEngine c1wstate (MovePayload.san sanNg8) true true false
      none).headers.result = "1/2-1/2" := by
  refine ⟨rfl, by decide, by decide, ?_⟩
  exact claim_C1_threefold_draw repEngine c1wstate (MovePayload.san sanNg8) true false none
    f7fen sanNg8 rfl (by decide) rfl rfl (by decide) (by decide) (by decide)

def sanNg3 : String := "Ng3"

def sanKb8 : String := "Kb8"

def sanNh1 : String := "Nh1"

def sanKa8 : String := "Ka8"

def r0fen : String := "k7/8/8/8/8/8/8/K6N w - - 0 1"

def r1fen : String := "k7/8/8/8/8/6N1/8/K7 b - - 1 1"

def r2fen : String := "1k6/8/8/8/8/6N1/8/K7 w - - 2 2"

def r3fen : String := "1k6/8/8/8/8/8/8/K6N b - - 3 2"

def r4fen : String := "k7/8/8/8/8/8/8/K6N w - - 4 3"

def r5fen : String := "k7/8/8/8/8/6N1/8/K7 b - - 5 3"

def r6fen : String := "1k6/8/8/8/8/6N1/8/K7 w - - 6 4"

def r7fen : String := "1k6/8/8/8/8/8/8/K6N b - - 7 4"

def r8fen : String := "k7/8/8/8/8/8/8/K6N w - - 8 5"

/-- An engine covering the same dance from a custom two-kings-and-knight
starting position. -/
def danceEngine : Engine String :=
  { positionFromFen := fun f => some f
    parseSan := fun _ s => some s
    parseUci := fun _ => none
    makeSan := fun _ m => m
    play := fun p m => if p = r7fen && m = sanKa8 then r8fen else p
    makeFen := id
    turn := fun _ => Color.white
    isEnd := fun _ => false
    isCheckmate := fun _ => false
    isStalemate := fun _ => false
    isInsufficientMaterial := fun _ => false }

def c1c7 : TreeNode := mkNode r7fen (some sanNh1) 7 []

def c1c6 : TreeNode := mkNode r6fen (some sanKb8) 6 [c1c7]

def c1c5 : TreeNode := mkNode r5fen (some sanNg3) 5 [c1c6]

def c1c4 : TreeNode := mkNode r4fen (some sanKa8) 4 [c1c5]

def c1c3 : TreeNode := mkNode r3fen (some sanNh1) 3 [c1c4]

def c1c2 : TreeNode := mkNode r2fen (some sanKb8) 2 [c1c3]

def c1c1 : TreeNode := mkNode r1fen (some sanNg3) 1 [c1c2]

def c1cstate : TreeState :=
  mkState (mkNode r0fen none 0 [c1c1]) [0, 0, 0, 0, 0, 0, 0]

/-- **C1 counterexample.** On a tree rooted at a custom starting
position, the stripped resulting position occurs twice along the direct
ancestor chain (at the root and four plies later), so the claim demands
a draw result; the code seeds its repetition list with the *default*
initial position instead of the root's, counts only one prior
occurrence, and leaves the result header untouched. -/
theorem claim_C1_counterexample :
    2 ≤ ((ancestorStrips c1cstate).filter
      (fun f => f = stripFen (danceEngine.makeFen (danceEngine.play r7fen sanKa8)))).length ∧
    validPath c1cstate.root c1cstate.position = true ∧
    (makeMove danceEngine c1cstate (MovePayload.san sanKa8) true true false
      none).headers.result ≠ "1/2-1/2" := by
  refine ⟨by decide, by decide, ?_⟩
  decide

/-! ## C4 / C7 — PGN codec scenarios -/

def sanE4 : String := "e4"

def sanE5 : String := "e5"

def sanC5 : String := "c5"

def eFen1 : String := "rnbqkbnr/pppppppp/8/8/4P3/8/PPPPPPPP/RNBQKBNR b KQkq e3 0 1"

def eFen2 : String := "rnbqkbnr/pppp1ppp/8/4p3/4P3/8/PPPPPPPP/RNBQKBNR w KQkq e6 0 2"

def eFen3 : String := "rnbqkbnr/pppp1ppp/8/4p3/4P3/5N2/PPPPP1PP/RNBQKB1R b KQkq - 1 2"

def cFen1 : String := "rnbqkbnr/pp1ppppp/8/2p5/4P3/8/PPPPPPPP/RNBQKBNR w KQkq c6 0 2"

def cFen2 : String := "rnbqkbnr/pp1ppppp/8/2p5/4P3/5N2/PPPPP1PP/RNBQKB1R b KQkq - 1 2"

def chessParse (f s : String) : Option String :=
  if f = INITIAL_FEN && s = sanE4 then some s
  else if f = eFen1 && (s = sanE5 || s = sanC5) then some s
  else if f = eFen2 && s = sanNf3 then some s
  else if f = cFen1 && s = sanNf3 then some s
  else none

def chessPlay (f m : String) : String :=
  if f = INITIAL_FEN && m = sanE4 then eFen1
  else if f = eFen1 && m = sanE5 then eFen2
  else if f = eFen1 && m = sanC5 then cFen1
  else if f = eFen2 && m = sanNf3 then eFen3
  else if f = cFen1 && m = sanNf3 then cFen2
  else f

/-- A table-driven rules engine for the `1. e4 e5 (1... c5 2. Nf3) 2. Nf3`
family of positions, with live positions represented by their FENs. -/
def chessEngine : Engine String :=
  { positionFromFen := fun f => some f
    parseSan := chessParse
    parseUci := fun _ => none
    makeSan := fun _ m => m
    play := chessPlay
    makeFen := fun f => f
    turn := fun f => if f = eFen1 || f = eFen3 || f = cFen2 then Color.black else Color.white
    isEnd := fun _ => false
    isCheckmate := fun _ => false
    isStalemate := fun _ => false
    isInsufficientMaterial := fun _ => false }

def c4State0 : TreeState := defaultTree chessEngine none none

def c4State1 : TreeState :=
  makeMove chessEngine c4State0 (MovePayload.san sanE4) true true true none

def c4State2 : TreeState :=
  makeMove chessEngine c4State1 (MovePayload.san sanE5) true true false none

def c4State3 : TreeState :=
  makeMove chessEngine c4State2 (MovePayload.san sanNf3) true true true none

/-- **C4 counterexample.** The scenario tree (e4 as mainline, e5 as a
non-mainline branch from e4, Nf3 as mainline from e5), encoded the way
`copyVariationPgn` encodes it (no headers), does *not* yield the claimed
string: `copyVariationPgn` passes `headers: null`, so no ` *` result
token is appended. -/
theorem claim_C4_counterexample :
    copyVariationPgnText trivialAnnInfo c4State3 [0, 0, 0] ≠ "1. e4 e5 2. Nf3 *" := by
  decide

/-- **C4 (amended).** Starting from the default initial position, after
`makeMove` of e4 (mainline), e5 (non-mainline), and Nf3 (mainline), the
cursor is `[0, 0, 0]` and encoding with variations disabled along that
path as `copyVariationPgn` does yields exactly `"1. e4 e5 2. Nf3"` — no
trailing result token, because `copyVariationPgn` passes no headers. -/
theorem claim_C4_scenario :
    c4State3.position = [0, 0, 0] ∧
    copyVariationPgnText trivialAnnInfo c4State3 [0, 0, 0] = "1. e4 e5 2. Nf3" := by
  constructor
  · decide
  · decide

def trivialPc : String → CommentInfo :=
  fun t => { evaluation := none, shapes := [], clock := none, text := t }

def resultStar : String := "*"

def c7Tokens : List Token :=
  [Token.san sanE4, Token.san sanE5, Token.parenOpen, Token.san sanC5, Token.san sanNf3,
   Token.parenClose, Token.san sanNf3, Token.outcome resultStar]

def c7Tree : TreeState :=
  (innerParsePGN chessEngine trivialAnnInfo trivialPc c7Tokens INITIAL_FEN 0).1

/-- **C7.** Decoding the token stream of
`"1. e4 e5 (1... c5 2. Nf3) 2. Nf3 *"` from the default initial position
yields a root with a four-node mainline chain (root, e4, e5, Nf3, each at
child index 0), the e4 node carrying exactly one additional non-mainline
child that starts the two-node variation c5, Nf3, and every child's
`halfMoves` equal to its parent's plus one. -/
theorem claim_C7_parse_scenario :
    c7Tree.root.san = none ∧
    c7Tree.root.halfMoves = 0 ∧
    c7Tree.root.children.length = 1 ∧
    (getNodeAtPath c7Tree.root [0]).san = some sanE4 ∧
    (getNodeAtPath c7Tree.root [0]).halfMoves = 1 ∧
    (getNodeAtPath c7Tree.root [0]).children.length = 2 ∧
    (getNodeAtPath c7Tree.root [0, 0]).san = some sanE5 ∧
    (getNodeAtPath c7Tree.root [0, 0]).halfMoves = 2 ∧
    (getNodeAtPath c7Tree.root [0, 0]).children.length = 1 ∧
    (getNodeAtPath c7Tree.root [0, 0, 0]).san = some sanNf3 ∧
    (getNodeAtPath c7Tree.root [0, 0, 0]).halfMoves = 3 ∧
    (getNodeAtPath c7Tree.root [0, 0, 0]).children.length = 0 ∧
    (getNodeAtPath c7Tree.root [0, 1]).san = some sanC5 ∧
    (getNodeAtPath c7Tree.root [0, 1]).halfMoves = 2 ∧
    (getNodeAtPath c7Tree.root [0, 1]).children.length = 1 ∧
    (getNodeAtPath c7Tree.root [0, 1, 0]).san = some sanNf3 ∧
    (getNodeAtPath c7Tree.root [0, 1, 0]).halfMoves = 3 ∧
    (getNodeAtPath c7Tree.root [0, 1, 0]).children.length = 0 := by
  decide

/-! ## C9 — replay idempotence of move sequences -/

/-- `makeMove` with the default store-action options: change the cursor,
update headers, insert non-mainline, no clock. -/
def makeMove1 {Pos : Type} (E : Engine Pos) (st : TreeState) (m : String) : TreeState :=
  makeMove E st (MovePayload.san m) true true false none

/-- Apply a sequence of notation strings through `makeMove`. -/
def applyMoves {Pos : Type} (E : Engine Pos) (st : TreeState) (moves : List String) : TreeState :=
  moves.foldl (fun s m => makeMove1 E s m) st

/-- Every move of the sequence is legal and non-degenerate at the point
where `makeMove` applies it. -/
def seqLegal {Pos : Type} (E : Engine Pos) : TreeState → List String → Bool
  | _, [] => true
  | st, m :: ms =>
    match E.positionFromFen (getNodeAtPath st.root st.position).fen with
    | none => false
    | some pos =>
      match E.parseSan pos m with
      | none => false
      | some mv => (!(E.makeSan pos mv = "--" : Bool)) && seqLegal E (makeMove1 E st m) ms

/-- The child indices the fast path follows for a move sequence below a
given start path: at each step the first child whose canonical notation
matches, `none` when some step has no such child or fails to parse. -/
def chainIdx {Pos : Type} (E : Engine Pos) (R : TreeNode) : List Nat → List String → Option (List Nat)
  | _, [] => some []
  | q, m :: ms =>
    let n := getNodeAtPath R q
    match E.positionFromFen n.fen with
    | none => none
    | some pos =>
      match E.parseSan pos m with
      | none => none
      | some mv =>
        let san := E.makeSan pos mv
        if san = "--" then none
        else
          match n.children.findIdx? (fun c => c.san == some san) with
          | none => none
          | some i => (chainIdx E R (q ++ [i]) ms).map (fun idxs => i :: idxs)

theorem modifyAtPath_san (f : TreeNode → TreeNode) (hf : ∀ n, (f n).san = n.san) :
    ∀ (n : TreeNode) (rest : List Nat), (modifyAtPath f n rest).san = n.san
  | n, [] => hf n
  | n, i :: rest => by
    by_cases h : i < n.children.length
    · rw [modifyAtPath_cons_lt f h]
    · rw [modifyAtPath_cons_ge f h]
      exact hf n

theorem findIdx?_san_congr {l₁ l₂ : List TreeNode}
    (h : l₁.map (fun c => c.san) = l₂.map (fun c => c.san)) (s : Option String) :
    l₁.findIdx? (fun c => c.san == s) = l₂.findIdx? (fun c => c.san == s) := by
  induction l₁ generalizing l₂ with
  | nil =>
    cases l₂ with
    | nil => rfl
    | cons b bs => simp at h
  | cons a as ih =>
    cases l₂ with
    | nil => simp at h
    | cons b bs =>
      simp only [List.map_cons, List.cons.injEq] at h
      rw [List.findIdx?_cons, List.findIdx?_cons, h.1]
      by_cases hb : (b.san == s)
      · simp [hb]
      · simp only [hb, Bool.false_eq_true, if_false]
        rw [List.findIdx?_succ, List.findIdx?_succ, ih h.2]

theorem findIdx?_append_none {α : Type} {l : List α} {p : α → Bool}
    (h : l.findIdx? p = none) (a : α) :
    (l ++ [a]).findIdx? p = if p a then some l.length else none := by
  rw [List.findIdx?_append, h, Option.none_or]
  by_cases hpa : p a
  · simp [List.findIdx?_cons, hpa]
  · simp [List.findIdx?_cons, hpa]

theorem getNodeAtPath_set_cons (R : TreeNode) (i : Nat) (h : i < R.children.length)
    (n : TreeNode) (rest : List Nat) :
    getNodeAtPath { R with children := R.children.set i n } (i :: rest) =
      getNodeAtPath n rest := by
  rw [getNodeAtPath]
  simp [h, List.getElem_set]

/-- Frame of `modifyAtPath` below a strictly longer valid path: the node
at `q` keeps its position string and its children's notations whenever
`q ++ [j]` is still a prefix of the modified path and the modification
preserves notations. -/
theorem modify_fen_san_proper_prefix (f : TreeNode → TreeNode)
    (hf_san : ∀ n, (f n).san = n.san) :
    ∀ (q p : List Nat) (R : TreeNode) (j : Nat),
    validPath R p = true → (q ++ [j]) <+: p →
    (getNodeAtPath (modifyAtPath f R p) q).fen = (getNodeAtPath R q).fen ∧
    (getNodeAtPath (modifyAtPath f R p) q).children.map (fun c => c.san) =
      (getNodeAtPath R q).children.map (fun c => c.san) := by
  intro q
  induction q with
  | nil =>
    intro p R j hval hpre
    obtain ⟨rest, hrest⟩ := hpre
    have hp : p = j :: rest := by
      rw [← hrest]
      simp
    subst hp
    have hj : j < R.children.length := by
      rcases Nat.lt_or_ge j R.children.length with h | h
      · exact h
      · rw [validPath_cons_ge (Nat.not_lt.mpr h)] at hval
        simp at hval
    rw [modifyAtPath_cons_lt f hj]
    refine ⟨rfl, ?_⟩
    show ((R.children.set j (modifyAtPath f R.children[j] rest)).map fun c => c.san) =
      R.children.map fun c => c.san
    simp only [List.map_set]
    rw [modifyAtPath_san f hf_san]
    have hj2 : j < (R.children.map fun c => c.san).length := by simpa using hj
    have hgetm : (R.children.map fun c => c.san)[j] = R.children[j].san := by simp
    have hset := list_set_self (R.children.map fun c => c.san) j hj2
    rw [hgetm] at hset
    exact hset
  | cons qh q' ih =>
    intro p R j hval hpre
    obtain ⟨rest, hrest⟩ := hpre
    have hp : p = qh :: (q' ++ [j] ++ rest) := by
      rw [← hrest]
      simp
    subst hp
    have hq : qh < R.children.length := by
      rcases Nat.lt_or_ge qh R.children.length with h | h
      · exact h
      · rw [validPath_cons_ge (Nat.not_lt.mpr h)] at hval
        simp at hval
    rw [validPath_cons_lt hq] at hval
    rw [modifyAtPath_cons_lt f hq, getNodeAtPath_set_cons R qh hq _ q',
      getNodeAtPath_cons_lt hq]
    exact ih (q' ++ [j] ++ rest) R.children[qh] j hval ⟨rest, by simp⟩

theorem makeMove1_fast {Pos : Type} (E : Engine Pos) (st : TreeState) (m : String)
    (pos : Pos) (mv : String) (i : Nat)
    (hpos : E.positionFromFen (getNodeAtPath st.root st.position).fen = some pos)
    (hmv : E.parseSan pos m = some mv)
    (hsan : ¬ E.makeSan pos mv = "--")
    (hidx : (getNodeAtPath st.root st.position).children.findIdx?
      (fun n => n.san == some (E.makeSan pos mv)) = some i) :
    makeMove1 E st m = { st with position := st.position ++ [i] } := by
  simp only [makeMove1, makeMove, hpos]
  rw [show payloadMove E pos (MovePayload.san m) = some mv from hmv]
  dsimp only
  rw [if_neg hsan]
  simp only [hidx]
  simp

theorem seqLegal_cons {Pos : Type} {E : Engine Pos} {st : TreeState} {m : String}
    {ms : List String} (h : seqLegal E st (m :: ms) = true) :
    ∃ pos mv, E.positionFromFen (getNodeAtPath st.root st.position).fen = some pos ∧
      E.parseSan pos m = some mv ∧ ¬ E.makeSan pos mv = "--" ∧
      seqLegal E (makeMove1 E st m) ms = true := by
  rw [seqLegal] at h
  split at h
  · exact absurd h (by simp)
  · next pos hp =>
    split at h
    · exact absurd h (by simp)
    · next mv hmv =>
      simp only [Bool.and_eq_true, Bool.not_eq_true', decide_eq_false_iff_not] at h
      exact ⟨pos, mv, hp, hmv, h.1, h.2⟩

theorem makeMove1_slow_proj {Pos : Type} (E : Engine Pos) (st : TreeState) (m : String)
    (pos : Pos) (mv : String)
    (hpos : E.positionFromFen (getNodeAtPath st.root st.position).fen = some pos)
    (hmv : E.parseSan pos m = some mv)
    (hsan : ¬ E.makeSan pos mv = "--")
    (hidx : (getNodeAtPath st.root st.position).children.findIdx?
      (fun n => n.san == some (E.makeSan pos mv)) = none) :
    (makeMove1 E st m).root = modifyAtPath
        (fun n => { n with children := n.children ++
          [createNode (E.makeFen (E.play pos mv)) mv (E.makeSan pos mv)
            ((getNodeAtPath st.root st.position).halfMoves + 1) none] })
        st.root st.position ∧
    (makeMove1 E st m).position =
      st.position ++ [(getNodeAtPath st.root st.position).children.length] := by
  constructor <;>
  · simp only [makeMove1, makeMove, hpos]
    rw [show payloadMove E pos (MovePayload.san m) = some mv from hmv]
    dsimp only
    rw [if_neg hsan]
    simp only [hidx]
    simp only [makeMoveOnTree, clonePath_eq, hpos, if_neg hsan, hidx, Bool.false_eq_true,
      if_false, Bool.and_false, Bool.false_and, Bool.not_false, ite_true, ite_false]

theorem makeMove1_step {Pos : Type} (E : Engine Pos) (st : TreeState) (m : String)
    (pos : Pos) (mv : String)
    (hval : validPath st.root st.position = true)
    (hpos : E.positionFromFen (getNodeAtPath st.root st.position).fen = some pos)
    (hmv : E.parseSan pos m = some mv)
    (hsan : ¬ E.makeSan pos mv = "--") :
    st.position <+: (makeMove1 E st m).position ∧
    validPath (makeMove1 E st m).root (makeMove1 E st m).position = true ∧
    (∀ q j, (q ++ [j]) <+: st.position →
      (getNodeAtPath (makeMove1 E st m).root q).fen = (getNodeAtPath st.root q).fen ∧
      (getNodeAtPath (makeMove1 E st m).root q).children.map (fun c => c.san) =
        (getNodeAtPath st.root q).children.map (fun c => c.san)) := by
  rcases hidx : (getNodeAtPath st.root st.position).children.findIdx?
      (fun n => n.san == some (E.makeSan pos mv)) with _ | i
  · obtain ⟨hroot, hposn⟩ := makeMove1_slow_proj E st m pos mv hpos hmv hsan hidx
    rw [hroot, hposn]
    refine ⟨List.prefix_append _ _, ?_, ?_⟩
    · rw [modify_valid _ _ _ _ hval]
      have hlen : (getNodeAtPath st.root st.position).children.length <
          (({ getNodeAtPath st.root st.position with
              children := (getNodeAtPath st.root st.position).children ++
                [createNode (E.makeFen (E.play pos mv)) mv (E.makeSan pos mv)
                  ((getNodeAtPath st.root st.position).halfMoves + 1) none] } : TreeNode)).children.length := by
        simp
      rw [validPath_cons_lt hlen]
      rfl
    · intro q j hpre
      exact modify_fen_san_proper_prefix
        (fun n => { n with children := n.children ++
          [createNode (E.makeFen (E.play pos mv)) mv (E.makeSan pos mv)
            ((getNodeAtPath st.root st.position).halfMoves + 1) none] })
        (fun n => rfl) q st.position st.root j hval hpre
  · rw [makeMove1_fast E st m pos mv i hpos hmv hsan hidx]
    have hi : i < (getNodeAtPath st.root st.position).children.length := by
      have := List.findIdx?_eq_some_iff_getElem.mp hidx
      exact this.1
    refine ⟨List.prefix_append _ _, ?_, fun q j _ => ⟨rfl, rfl⟩⟩
    show validPath st.root (st.position ++ [i]) = true
    rw [validPath_append _ _ _ hval, validPath_cons_lt hi]
    rfl

theorem applyMoves_nil {Pos : Type} (E : Engine Pos) (st : TreeState) :
    applyMoves E st [] = st := rfl

theorem applyMoves_cons {Pos : Type} (E : Engine Pos) (st : TreeState) (m : String)
    (ms : List String) :
    applyMoves E st (m :: ms) = applyMoves E (makeMove1 E st m) ms := rfl

/-- Invariant of a legal fold: the cursor only extends, stays valid, and
the position string and children notations of every node strictly above
the start cursor are untouched. -/
theorem applyMoves_inv {Pos : Type} (E : Engine Pos) :
    ∀ (moves : List String) (st : TreeState),
    validPath st.root st.position = true →
    seqLegal E st moves = true →
    st.position <+: (applyMoves E st moves).position ∧
    validPath (applyMoves E st moves).root (applyMoves E st moves).position = true ∧
    (∀ q j, (q ++ [j]) <+: st.position →
      (getNodeAtPath (applyMoves E st moves).root q).fen = (getNodeAtPath st.root q).fen ∧
      (getNodeAtPath (applyMoves E st moves).root q).children.map (fun c => c.san) =
        (getNodeAtPath st.root q).children.map (fun c => c.san)) := by
  intro moves
  induction moves with
  | nil =>
    intro st hval _
    exact ⟨List.prefix_refl _, hval, fun q j _ => ⟨rfl, rfl⟩⟩
  | cons m ms ih =>
    intro st hval hleg
    obtain ⟨pos, mv, hp, hm, hs, hrest⟩ := seqLegal_cons hleg
    obtain ⟨spre, sval, sframe⟩ := makeMove1_step E st m pos mv hval hp hm hs
    obtain ⟨ipre, ival, iframe⟩ := ih (makeMove1 E st m) sval hrest
    rw [applyMoves_cons]
    refine ⟨spre.trans ipre, ival, ?_⟩
    intro q j hpre
    have hpre' : (q ++ [j]) <+: (makeMove1 E st m).position := hpre.trans spre
    obtain ⟨f1, f2⟩ := iframe q j hpre'
    obtain ⟨g1, g2⟩ := sframe q j hpre
    exact ⟨f1.trans g1, f2.trans g2⟩

/-- After a legal fold, the fast-path child indices of the whole sequence
can be recovered from the final root, and the final cursor is the start
cursor extended by them. -/
theorem applyMoves_chain {Pos : Type} (E : Engine Pos) :
    ∀ (moves : List String) (st : TreeState),
    validPath st.root st.position = true →
    seqLegal E st moves = true →
    ∃ idxs,
      (applyMoves E st moves).position = st.position ++ idxs ∧
      chainIdx E (applyMoves E st moves).root st.position moves = some idxs := by
  intro moves
  induction moves with
  | nil =>
    intro st hval _
    exact ⟨[], by simp [applyMoves_nil], rfl⟩
  | cons m ms ih =>
    intro st hval hleg
    obtain ⟨pos, mv, hp, hm, hs, hrest⟩ := seqLegal_cons hleg
    obtain ⟨spre, sval, sframe⟩ := makeMove1_step E st m pos mv hval hp hm hs
    obtain ⟨idxs, ipos, ichain⟩ := ih (makeMove1 E st m) sval hrest
    obtain ⟨-, -, iframe⟩ := applyMoves_inv E ms (makeMove1 E st m) sval hrest
    rcases hidx : (getNodeAtPath st.root st.position).children.findIdx?
        (fun n => n.san == some (E.makeSan pos mv)) with _ | i
    · obtain ⟨hroot, hposn⟩ := makeMove1_slow_proj E st m pos mv hp hm hs hidx
      obtain ⟨ffen, fsan⟩ := iframe st.position
        (getNodeAtPath st.root st.position).children.length
        (by rw [hposn])
      have hfen : (getNodeAtPath (applyMoves E (makeMove1 E st m) ms).root st.position).fen =
          (getNodeAtPath st.root st.position).fen := by
        rw [ffen, hroot, modify_resolve_self _ _ _ hval]
      have hsanmap : (getNodeAtPath (applyMoves E (makeMove1 E st m) ms).root
            st.position).children.map (fun c => c.san) =
          ((getNodeAtPath st.root st.position).children ++
            [createNode (E.makeFen (E.play pos mv)) mv (E.makeSan pos mv)
              ((getNodeAtPath st.root st.position).halfMoves + 1) none]).map
            (fun c => c.san) := by
        rw [fsan, hroot, modify_resolve_self _ _ _ hval]
      have hfind : (getNodeAtPath (applyMoves E (makeMove1 E st m) ms).root
            st.position).children.findIdx? (fun c => c.san == some (E.makeSan pos mv)) =
          some (getNodeAtPath st.root st.position).children.length := by
        rw [findIdx?_san_congr hsanmap (some (E.makeSan pos mv)),
          List.findIdx?_append, hidx, Option.none_or, List.findIdx?_cons]
        simp [createNode]
      rw [hposn] at ichain
      refine ⟨(getNodeAtPath st.root st.position).children.length :: idxs, ?_, ?_⟩
      · rw [applyMoves_cons, ipos, hposn]
        simp
      · rw [applyMoves_cons, chainIdx]
        rw [hfen, hp]
        dsimp only
        rw [hm]
        dsimp only
        rw [if_neg hs, hfind]
        dsimp only
        rw [ichain]
        rfl
    · have hstep : makeMove1 E st m = { st with position := st.position ++ [i] } :=
        makeMove1_fast E st m pos mv i hp hm hs hidx
      have hroot2 : (makeMove1 E st m).root = st.root := by rw [hstep]
      have hposn2 : (makeMove1 E st m).position = st.position ++ [i] := by rw [hstep]
      obtain ⟨ffen, fsan⟩ := iframe st.position i (by rw [hposn2])
      rw [hroot2] at ffen fsan
      have hfind : (getNodeAtPath (applyMoves E (makeMove1 E st m) ms).root
            st.position).children.findIdx? (fun c => c.san == some (E.makeSan pos mv)) =
          some i := by
        rw [findIdx?_san_congr fsan (some (E.makeSan pos mv)), hidx]
      rw [hposn2] at ichain
      refine ⟨i :: idxs, ?_, ?_⟩
      · rw [applyMoves_cons, ipos, hposn2]
        simp
      · rw [applyMoves_cons, chainIdx]
        rw [ffen, hp]
        dsimp only
        rw [hm]
        dsimp only
        rw [if_neg hs, hfind]
        dsimp only
        rw [ichain]
        rfl

/-- Re-applying a sequence whose fast-path indices are recoverable from
the (unchanged) root only advances the cursor. -/
theorem applyMoves_replay {Pos : Type} (E : Engine Pos) :
    ∀ (ms : List String) (S : TreeState) (q : List Nat) (idxs : List Nat),
    chainIdx E S.root q ms = some idxs →
    applyMoves E { S with position := q } ms = { S with position := q ++ idxs } := by
  intro ms
  induction ms with
  | nil =>
    intro S q idxs h
    rw [chainIdx] at h
    obtain rfl : ([] : List Nat) = idxs := by simpa using h
    simp [applyMoves_nil]
  | cons m ms ih =>
    intro S q idxs h
    rw [chainIdx] at h
    dsimp only at h
    rcases hp : E.positionFromFen (getNodeAtPath S.root q).fen with _ | pos
    · rw [hp] at h
      simp at h
    · rw [hp] at h
      dsimp only at h
      rcases hm : E.parseSan pos m with _ | mv
      · rw [hm] at h
        simp at h
      · rw [hm] at h
        dsimp only at h
        by_cases hs : E.makeSan pos mv = "--"
        · rw [if_pos hs] at h
          simp at h
        · rw [if_neg hs] at h
          rcases hidx : (getNodeAtPath S.root q).children.findIdx?
              (fun c => c.san == some (E.makeSan pos mv)) with _ | i
          · rw [hidx] at h
            simp at h
          · rw [hidx] at h
            dsimp only at h
            rcases hrec : chainIdx E S.root (q ++ [i]) ms with _ | idxs'
            · rw [hrec] at h
              simp at h
            · rw [hrec] at h
              obtain rfl : i :: idxs' = idxs := by simpa using h
              have hstep : makeMove1 E { S with position := q } m =
                  { S with position := q ++ [i] } := by
                have := makeMove1_fast E { S with position := q } m pos mv i hp hm hs hidx
                rw [this]
              rw [applyMoves_cons, hstep, ih S (q ++ [i]) idxs' hrec]
              simp

/-- C9: for every sequence of moves applied from the root cursor, each of
which is legal and non-degenerate at the point where it is applied,
re-applying the same sequence after resetting the cursor to the root
reproduces the final state exactly: every re-application takes the fast
path, so the root (hence every node's content) is unchanged by the replay
and only the cursor advances back to the node reached by the first
application. -/
theorem claim_C9_replay {Pos : Type} (E : Engine Pos) (st : TreeState) (moves : List String)
    (hstart : st.position = [])
    (hleg : seqLegal E st moves = true) :
    applyMoves E { applyMoves E st moves with position := [] } moves =
      applyMoves E st moves := by
  have hval : validPath st.root st.position = true := by
    rw [hstart]
    rfl
  obtain ⟨idxs, hpos, hchain⟩ := applyMoves_chain E moves st hval hleg
  rw [hstart] at hchain
  have hrep := applyMoves_replay E moves (applyMoves E st moves) [] idxs hchain
  rw [hrep]
  rw [hstart] at hpos
  rw [List.nil_append] at hpos
  rw [List.nil_append, ← hpos]

def c9mA : String := "Na3"

def c9mB : String := "Nf6"

def c9moves : List String := [c9mA, c9mB]

def c9engine : Engine String :=
  { positionFromFen := fun f => some f
    parseSan := fun _ s => some s
    parseUci := fun _ => none
    makeSan := fun _ m => m
    play := fun p m => p ++ m
    makeFen := id
    turn := fun _ => Color.white
    isEnd := fun _ => false
    isCheckmate := fun _ => false
    isStalemate := fun _ => false
    isInsufficientMaterial := fun _ => false }

def c9state : TreeState := defaultTree c9engine none none

theorem claim_C9_witness :
    (c9state.position = [] ∧ seqLegal c9engine c9state c9moves = true) ∧
    applyMoves c9engine { applyMoves c9engine c9state c9moves with position := [] } c9moves =
      applyMoves c9engine c9state c9moves :=
  ⟨⟨rfl, by decide⟩, claim_C9_replay c9engine c9state c9moves rfl (by decide)⟩
